import Mathlib

/-!
Verification development for a small chess engine (board model, piece move
generation, legality filter, position analysis, game-state machine and
tree-search players).

Representation notes.  The source stores square addresses as two-character
labels (column letter + 1-based rank digit) and converts them to 0-based
matrix coordinates with `labelToGridReference` / `gridReferenceToLabel`
(a bijection on the 8x8 board, proved below).  Except where a claim is about
labels themselves, positions are represented directly as the 0-based
`(row, column)` matrix coordinates the source ultimately indexes its grid
with (row 0 is rank 8, per `row = 8 - int(rank)`).

Machine integers do not occur: the source works with Python ints (scores)
and small naturals (indices); these are embedded as `Int` and `Nat`.
-/

namespace Chess

/-- Square address as 0-based (row, column) matrix coordinates. -/
abbrev Pos := Nat × Nat

/-- The six chess piece kinds (`Pawn`, `Knight`, `Bishop`, `Rook`, `Queen`,
`King` classes of the source). -/
inductive PieceKind where
  | pawn | knight | bishop | rook | queen | king
deriving DecidableEq

/-- A piece: kind, colour flag (`_isBlack`) and its stored current position
(`_currentPosition`, label converted to grid coordinates). -/
structure Piece where
  kind : PieceKind
  isBlack : Bool
  pos : Pos
deriving DecidableEq

/-- The board grid: an 8x8 (in general n x n) matrix of optional pieces,
`Board._grid` of the source. -/
abbrev Board := List (List (Option Piece))

/-- Positional-value table of the black Pawn (`Pawn._adjustmentGrid`). -/
def pawnAdjBlack : List (List Int) :=
  [[0, 0, 0, 0, 0, 0, 0, 0],
   [0, 0, 0, 0, 0, 0, 0, 0],
   [0, 0, 0, -1, -1, 0, 0, 0],
   [0, 0, 0, -2, -2, 0, 0, 0],
   [0, 0, 0, 0, 0, 0, 0, 0],
   [-10, -10, -10, -30, -30, -30, -30, -30],
   [-30, -30, -30, -30, -30, -30, -30, -30],
   [-80, -80, -80, -80, -80, -80, -80, -80]]

/-- Positional-value table of the white Pawn. -/
def pawnAdjWhite : List (List Int) :=
  [[80, 80, 80, 80, 80, 80, 80, 80],
   [30, 30, 30, 30, 30, 30, 30, 30],
   [10, 10, 10, 10, 10, 10, 10, 10],
   [0, 0, 0, 0, 0, 0, 0, 0],
   [0, 0, 0, 2, 2, 0, 0, 0],
   [0, 0, 0, 1, 1, 0, 0, 0],
   [0, 0, 0, 0, 0, 0, 0, 0],
   [0, 0, 0, 0, 0, 0, 0, 0]]

/-- Positional-value table of the black Knight. -/
def knightAdjBlack : List (List Int) :=
  [[5, 4, 3, 3, 3, 3, 4, 5],
   [4, 2, 0, 0, 0, 0, 2, 4],
   [3, 0, -1, -2, -2, -1, 0, 3],
   [3, -1, -2, -3, -3, -2, -1, 3],
   [3, -1, -2, -3, -3, -2, -1, 3],
   [3, 0, -1, -2, -2, -1, 0, 3],
   [4, 2, 0, 0, 0, 0, 2, 4],
   [5, 4, 3, 3, 3, 3, 4, 5]]

/-- Positional-value table of the white Knight. -/
def knightAdjWhite : List (List Int) :=
  [[-5, -4, -3, -3, -3, -3, -4, -5],
   [-4, -2, 0, 0, 0, 0, -2, -4],
   [-3, 0, 1, 2, 2, 1, 0, -3],
   [-3, 1, 2, 3, 3, 2, 1, -3],
   [-3, 1, 2, 3, 3, 2, 1, -3],
   [-3, 0, 1, 2, 2, 1, 0, -3],
   [-4, -2, 0, 0, 0, 0, -2, -4],
   [-5, -4, -3, -3, -3, -3, -4, -5]]

/-- Positional-value table of the black Bishop. -/
def bishopAdjBlack : List (List Int) :=
  [[2, 1, 1, 1, 1, 1, 1, 2],
   [1, 0, 0, 0, 0, 0, 0, 1],
   [1, 0, -1, -1, -1, -1, 0, 1],
   [1, 0, -1, -1, -1, -1, 0, 1],
   [1, 0, -1, -1, -1, -1, 0, 1],
   [1, 0, -1, -1, -1, -1, 0, 1],
   [1, 0, 0, 0, 0, 0, 0, 1],
   [2, 1, 1, 1, 1, 1, 1, 2]]

/-- Positional-value table of the white Bishop. -/
def bishopAdjWhite : List (List Int) :=
  [[-2, -1, -1, -1, -1, -1, -1, -2],
   [-1, 0, 0, 0, 0, 0, 0, -1],
   [-1, 0, 1, 1, 1, 1, 0, -1],
   [-1, 0, 1, 1, 1, 1, 0, -1],
   [-1, 0, 1, 1, 1, 1, 0, -1],
   [-1, 0, 1, 1, 1, 1, 0, -1],
   [-1, 0, 0, 0, 0, 0, 0, -1],
   [-2, -1, -1, -1, -1, -1, -1, -2]]

/-- Positional-value table of the black Rook. -/
def rookAdjBlack : List (List Int) :=
  [[0, 0, 0, -1, -1, -1, 0, 0],
   [0, 0, 0, 0, 0, 0, 0, 0],
   [1, 0, 0, 0, 0, 0, 0, 1],
   [1, 0, 0, 0, 0, 0, 0, 1],
   [1, 0, 0, 0, 0, 0, 0, 1],
   [1, 0, 0, 0, 0, 0, 0, 1],
   [0, -1, -1, -1, -1, -1, -1, 0],
   [0, 0, 0, 0, 0, 0, 0, 0]]

/-- Positional-value table of the white Rook. -/
def rookAdjWhite : List (List Int) :=
  [[0, 0, 0, 0, 0, 0, 0, 0],
   [0, 1, 1, 1, 1, 1, 1, 0],
   [-1, 0, 0, 0, 0, 0, 0, -1],
   [-1, 0, 0, 0, 0, 0, 0, -1],
   [-1, 0, 0, 0, 0, 0, 0, -1],
   [-1, 0, 0, 0, 0, 0, 0, -1],
   [0, 0, 0, 0, 0, 0, 0, 0],
   [0, 0, 0, 1, 1, 1, 0, 0]]

/-- Positional-value table of the black Queen. -/
def queenAdjBlack : List (List Int) :=
  [[2, 1, 1, 0, 0, 1, 1, 2],
   [1, 0, 0, 0, 0, 0, 0, 1],
   [1, 0, -1, -1, -1, -1, 0, 1],
   [0, 0, -1, -1, -1, -1, 0, 0],
   [0, 0, -1, -1, -1, -1, 0, 0],
   [1, 0, -1, -1, -1, -1, 0, 1],
   [1, 0, 0, 0, 0, 0, 0, 1],
   [2, 1, 1, 0, 0, 1, 1, 2]]

/-- Positional-value table of the white Queen. -/
def queenAdjWhite : List (List Int) :=
  [[-2, -1, -1, 0, 0, -1, -1, -2],
   [-1, 0, 0, 0, 0, 0, 0, -1],
   [-1, 0, 1, 1, 1, 1, 0, -1],
   [0, 0, 1, 1, 1, 1, 0, 0],
   [0, 0, 1, 1, 1, 1, 0, 0],
   [-1, 0, 1, 1, 1, 1, 0, -1],
   [-1, 0, 0, 0, 0, 0, 0, -1],
   [-2, -1, -1, 0, 0, -1, -1, -2]]

/-- Positional-value table of the black King. -/
def kingAdjBlack : List (List Int) :=
  [[-3, -2, -1, 0, 0, -1, -2, -3],
   [-2, -2, 0, 0, 0, 0, -2, -2],
   [1, 2, 2, 2, 2, 2, 2, 1],
   [2, 3, 3, 4, 4, 3, 3, 2],
   [3, 4, 5, 5, 5, 5, 4, 3],
   [3, 4, 5, 5, 5, 5, 4, 3],
   [3, 4, 5, 5, 5, 5, 4, 3],
   [3, 4, 5, 5, 5, 5, 4, 3]]

/-- Positional-value table of the white King. -/
def kingAdjWhite : List (List Int) :=
  [[-3, -4, -5, -5, -5, -5, -4, -3],
   [-3, -4, -5, -5, -5, -5, -4, -3],
   [-3, -4, -5, -5, -5, -5, -4, -3],
   [-3, -4, -5, -5, -5, -5, -4, -3],
   [-2, -3, -3, -4, -4, -3, -3, -1],
   [-1, -2, -2, -2, -2, -2, -2, -1],
   [2, 2, 0, 0, 0, 0, 2, 2],
   [3, 2, 1, 0, 0, 1, 2, 3]]

/-- Selects the `_adjustmentGrid` a piece of the given kind and colour is
constructed with. -/
def adjustmentGrid : PieceKind → Bool → List (List Int)
  | .pawn, true => pawnAdjBlack
  | .pawn, false => pawnAdjWhite
  | .knight, true => knightAdjBlack
  | .knight, false => knightAdjWhite
  | .bishop, true => bishopAdjBlack
  | .bishop, false => bishopAdjWhite
  | .rook, true => rookAdjBlack
  | .rook, false => rookAdjWhite
  | .queen, true => queenAdjBlack
  | .queen, false => queenAdjWhite
  | .king, true => kingAdjBlack
  | .king, false => kingAdjWhite

/-- Base material value (`_baseScore`): signed, negative for black. -/
def baseScore (p : Piece) : Int :=
  match p.kind with
  | .pawn => if p.isBlack then -10 else 10
  | .knight => if p.isBlack then -30 else 30
  | .bishop => if p.isBlack then -30 else 30
  | .rook => if p.isBlack then -50 else 50
  | .queen => if p.isBlack then -90 else 90
  | .king => if p.isBlack then -999 else 999

/-- Table lookup at the piece's own stored position (`_scoreAdjustment`,
using the `__gridReference` maintained from `_currentPosition`).  An
out-of-range position would be an index error in the source and cannot occur
for an on-board piece; the lookup totalises it to 0. -/
def scoreAdjustment (p : Piece) : Int :=
  ((((adjustmentGrid p.kind p.isBlack).get? p.pos.1).bind (fun row => row.get? p.pos.2)).getD 0)

/-- Signed heuristic value of a piece (`AbstractPiece.score`). -/
def Piece.score (p : Piece) : Int :=
  baseScore p + scoreAdjustment p

/-- Text name of a piece kind (`description`). -/
def pieceDescription : PieceKind → String
  | .pawn => "Pawn"
  | .knight => "Knight"
  | .bishop => "Bishop"
  | .rook => "Rook"
  | .queen => "Queen"
  | .king => "King"

/-- Lookup of a grid cell (`Board.pieceAtGridReference`). -/
def pieceAtGridReference (b : Board) (r c : Nat) : Option Piece :=
  ((b.get? r).bind (fun row => row.get? c)).join

/-- Lookup at a position pair (`Board.pieceAtLabel` composed with the
label-to-grid conversion). -/
def pieceAtPos (b : Board) (p : Pos) : Option Piece :=
  pieceAtGridReference b p.1 p.2

/-- Writes one grid cell.  (`List.set` ignores an out-of-range index, which
in the source would instead be a label-validation error; all uses below are
in range.) -/
def setCell (b : Board) (r c : Nat) (v : Option Piece) : Board :=
  match b.get? r with
  | none => b
  | some row => b.set r (row.set c v)

/-- `Board.set`: places a piece at its own stored position, overwriting
whatever is there. -/
def Board.setPiece (b : Board) (p : Piece) : Board :=
  setCell b p.pos.1 p.pos.2 (some p)

/-- `Board.remove`: clears the cell and returns the removed piece (if any)
together with the updated board. -/
def Board.removePiece (b : Board) (p : Pos) : Option Piece × Board :=
  (pieceAtPos b p, setCell b p.1 p.2 none)

/-- `Board.move`: removes the piece at `fromSq`, removes (captures) whatever
is at `toSq`, relocates the moved piece (its stored position is updated, as
`setPosition` does) and returns the updated board with the captured piece.
If `fromSq` is empty the source raises (`None.setPosition`); that branch is
unreachable in every use below and is embedded as leaving both cells
cleared. -/
def Board.movePiece (b : Board) (fromSq toSq : Pos) : Board × Option Piece :=
  let r1 := b.removePiece fromSq
  let r2 := r1.2.removePiece toSq
  match r1.1 with
  | none => (r2.2, r2.1)
  | some p => (r2.2.setPiece { p with pos := toSq }, r2.1)

/-- `Board._positionXandYFrom` / `positionOffset`: the square an (row, col)
offset away, or `none` when that falls off the board. -/
def positionXandYFrom (b : Board) (sq : Pos) (d : Int × Int) : Option Pos :=
  let nr : Int := (sq.1 : Int) + d.1
  let nc : Int := (sq.2 : Int) + d.2
  if nr < 0 ∨ nc < 0 ∨ nr ≥ (b.length : Int) ∨ nc ≥ (b.length : Int) then none
  else some (nr.toNat, nc.toNat)

/-- `Board.isEmpty`. -/
def boardIsEmpty (b : Board) (p : Pos) : Bool :=
  (pieceAtPos b p).isNone

/-- `Board.piecesStillOnBoard`: all pieces, in row-major grid order. -/
def piecesStillOnBoard (b : Board) : List Piece :=
  b.flatten.filterMap id

/-- `Board.piecesLeft`: the pieces of one colour, in row-major order. -/
def piecesLeft (b : Board) (isBlack : Bool) : List Piece :=
  (piecesStillOnBoard b).filter (fun p => p.isBlack == isBlack)

/-- `Board.piecesScore`: the signed heuristic total over all pieces. -/
def piecesScore (b : Board) : Int :=
  ((piecesStillOnBoard b).map Piece.score).sum

/-- Direction vectors of each officer kind (`_validDirections`; the Queen
concatenates the Rook and Bishop vectors, the King inherits the Queen's). -/
def validDirections : PieceKind → List (Int × Int)
  | .knight => [(2, -1), (2, 1), (1, -2), (1, 2), (-1, -2), (-1, 2), (-2, -1), (-2, 1)]
  | .bishop => [(1, 1), (1, -1), (-1, 1), (-1, -1)]
  | .rook => [(1, 0), (0, 1), (-1, 0), (0, -1)]
  | .queen => [(1, 0), (0, 1), (-1, 0), (0, -1), (1, 1), (1, -1), (-1, 1), (-1, -1)]
  | .king => [(1, 0), (0, 1), (-1, 0), (0, -1), (1, 1), (1, -1), (-1, 1), (-1, -1)]
  | .pawn => []

/-- `_canMoveMultipleTimes`: whether the kind slides. -/
def canMoveMultipleTimes : PieceKind → Bool
  | .bishop => true
  | .rook => true
  | .queen => true
  | _ => false

/-- One direction of `AbstractOfficer.availableSquares`: walk from `cur`
until blocked by the edge, a friendly piece, or (inclusively) an enemy
piece; a non-slider stops after one step.  The `while True` loop is bounded
by the board size, supplied as fuel. -/
def slideSquares (b : Board) (isBlack multi : Bool) (d : Int × Int) :
    Nat → Pos → List Pos
  | 0, _ => []
  | fuel + 1, cur =>
    match positionXandYFrom b cur d with
    | none => []
    | some s =>
      if boardIsEmpty b s then
        if multi then s :: slideSquares b isBlack multi d fuel s else [s]
      else
        match pieceAtPos b s with
        | some q => if q.isBlack != isBlack then [s] else []
        | none => []

/-- `AbstractOfficer.availableSquares`: all candidate destinations of a
non-pawn piece. -/
def officerAvailableSquares (b : Board) (p : Piece) : List Pos :=
  (validDirections p.kind).flatMap
    (fun d => slideSquares b p.isBlack (canMoveMultipleTimes p.kind) d b.length p.pos)

/-- The two diagonal capture offsets of a pawn of the given colour. -/
def pawnDiagonals (isBlack : Bool) : List (Int × Int) :=
  if isBlack then [(1, 1), (1, -1)] else [(-1, 1), (-1, -1)]

/-- `Pawn.availableSquares`: one forward step onto an empty square, a second
from the starting rank (rank 7 for black, rank 2 for white, i.e. grid rows 1
and 6) when also empty, and diagonal steps only onto enemy pieces. -/
def pawnAvailableSquares (b : Board) (p : Piece) : List Pos :=
  let dir : Int × Int := if p.isBlack then (1, 0) else (-1, 0)
  let canMoveTwo := (p.isBlack && p.pos.1 == 1) || (!p.isBlack && p.pos.1 == 6)
  let forward :=
    match positionXandYFrom b p.pos dir with
    | none => []
    | some s =>
      if boardIsEmpty b s then
        s :: (if canMoveTwo then
          match positionXandYFrom b s dir with
          | none => []
          | some s2 => if boardIsEmpty b s2 then [s2] else []
        else [])
      else []
  let diags :=
    (pawnDiagonals p.isBlack).flatMap (fun m =>
      match positionXandYFrom b p.pos m with
      | none => []
      | some s =>
        match pieceAtPos b s with
        | some q => if q.isBlack != p.isBlack then [s] else []
        | none => [])
  forward ++ diags

/-- `Pawn.attackingSquares`: the diagonal squares regardless of occupancy
(a pawn threatens squares it cannot necessarily move into). -/
def pawnAttackingSquares (b : Board) (p : Piece) : List Pos :=
  (pawnDiagonals p.isBlack).flatMap (fun m =>
    match positionXandYFrom b p.pos m with
    | none => []
    | some s => [s])

/-- `availableSquares` dispatched on the piece kind. -/
def availableSquares (b : Board) (p : Piece) : List Pos :=
  match p.kind with
  | .pawn => pawnAvailableSquares b p
  | _ => officerAvailableSquares b p

/-- A candidate move (`ChessMove`): from/to squares, description, mover's
colour, the mutable `disallowed` flag and optional `warning` text. -/
structure ChessMove where
  fromSquare : Pos
  toSquare : Pos
  description : String
  isBlack : Bool
  disallowed : Bool
  warning : Option String
deriving DecidableEq

/-- `BasicChessMoveCalculator.possibleMoves`: one fresh (never disallowed)
move per piece of the colour and candidate destination. -/
def possibleMoves (b : Board) (isBlack : Bool) : List ChessMove :=
  ((piecesStillOnBoard b).filter (fun p => p.isBlack == isBlack)).flatMap
    (fun p => (availableSquares b p).map (fun t =>
      { fromSquare := p.pos, toSquare := t, description := pieceDescription p.kind,
        isBlack := isBlack, disallowed := false, warning := none }))

/-- `BasicChessMoveCalculator._checkForCheck`: whether any piece of the
attacking colour reaches the defending king's square (pawns contribute
`attackingSquares`, other pieces `availableSquares`).  The source indexes
`[0]` of the defender-king list and raises when there is none; all uses in
the claims have both kings on the board, and the embedding totalises the
missing-king branch to `false`. -/
def checkForCheck (b : Board) (attackerIsBlack : Bool) : Bool :=
  let pieces := piecesStillOnBoard b
  match pieces.find? (fun p => p.kind == PieceKind.king && p.isBlack != attackerIsBlack) with
  | none => false
  | some defenderKing =>
    (pieces.filter (fun p => p.isBlack == attackerIsBlack)).any (fun p =>
      decide (defenderKing.pos ∈
        (if p.kind == PieceKind.pawn then pawnAttackingSquares b p else availableSquares b p)))

/-- Numeric value of an ASCII digit character, as `int(...)` parses the
single rank character of a label (the source would also accept non-ASCII
Unicode decimals; labels only ever carry ASCII digits). -/
def charDigitVal (c : Char) : Option Nat :=
  if c.isDigit then some (c.toNat - 48) else none

/-- `Board.labelToGridReference` for the 8x8 chess board: a two-character
label, column letter (lower-cased first, `a`..`h`) and rank digit `1`..`8`,
to matrix coordinates `(8 - rank, column - a)`.  Each `raise ValueError`
branch of the source is `none`. -/
def labelToGridReference (s : String) : Option (Nat × Nat) :=
  match s.data with
  | [c0, c1] =>
    let col := c0.toLower
    if 97 ≤ col.toNat ∧ col.toNat ≤ 104 then
      match charDigitVal c1 with
      | some d => if 1 ≤ d ∧ d ≤ 8 then some (8 - d, col.toNat - 97) else none
      | none => none
    else none
  | _ => none

/-- `Board.gridReferenceToLabel` for the 8x8 chess board: matrix coordinates
`(r, c)` to the label made of the column letter `chr(ord a + c)` and the
rank digit `str(8 - r)`. -/
def gridReferenceToLabel (rc : Nat × Nat) : String :=
  ⟨[Char.ofNat (97 + rc.2), Char.ofNat (48 + (8 - rc.1))]⟩

/-- Whether a label string starts with a character that is already
lower-case (unchanged by `str.lower`). -/
def lowercaseColumn (s : String) : Prop :=
  match s.data with
  | c0 :: _ => c0.toLower = c0
  | [] => True

instance (s : String) : Decidable (lowercaseColumn s) := by
  unfold lowercaseColumn
  match s.data with
  | c0 :: _ => exact inferInstanceAs (Decidable (c0.toLower = c0))
  | [] => exact inferInstanceAs (Decidable True)

/-- `ChessGame._checkForStalemate`: reports a material-insufficiency draw
when the defender is down to at most one piece, the attacker has at most
three pieces, and the attacker holds no Queen, Pawn or Rook, fewer than two
Bishops and not a Knight together with a Bishop. -/
def checkForStalemate (b : Board) (attackerIsBlack : Bool) : Bool :=
  let defendingPieces := piecesLeft b (!attackerIsBlack)
  if defendingPieces.length > 1 then false
  else
    let attackingPieces := piecesLeft b attackerIsBlack
    if attackingPieces.length > 3 then false
    else
      let remainingPieceTypes := attackingPieces.map Piece.kind
      if PieceKind.queen ∈ remainingPieceTypes
          ∨ PieceKind.pawn ∈ remainingPieceTypes
          ∨ PieceKind.rook ∈ remainingPieceTypes
          ∨ remainingPieceTypes.count PieceKind.bishop > 1
          ∨ (PieceKind.knight ∈ remainingPieceTypes ∧ PieceKind.bishop ∈ remainingPieceTypes)
      then false
      else true

/-- Modelled from the spec words of the material-insufficiency rule, for
comparison with `checkForStalemate`: the attacker holds no piece from
the set Queen, Pawn, Rook, two-or-more Bishops, Knight-and-Bishop.  (The
spec sentence does not mention the attacker's piece-count cap.) -/
def materialInsufficiencySpec (b : Board) (attackerIsBlack : Bool) : Bool :=
  let kinds := (piecesLeft b attackerIsBlack).map Piece.kind
  !(decide (PieceKind.queen ∈ kinds
    ∨ PieceKind.pawn ∈ kinds
    ∨ PieceKind.rook ∈ kinds
    ∨ kinds.count PieceKind.bishop ≥ 2
    ∨ (PieceKind.knight ∈ kinds ∧ PieceKind.bishop ∈ kinds)))

/-- The board resulting from simulating a candidate move on a copy
(`copyBoard = board.copyOfBoard(); copyBoard.move(...)`). -/
def simulateMove (b : Board) (m : ChessMove) : Board :=
  (b.movePiece m.fromSquare m.toSquare).1

/-- `BasicChessMoveCalculator._movesWithThoseLeavingCheckDisallowed`: every
candidate move is simulated on a board copy; a move after which the mover's
own king is attacked is marked `disallowed` with a warning, others are left
untouched. -/
def movesWithThoseLeavingCheckDisallowed (b : Board) (isBlack : Bool) : List ChessMove :=
  (possibleMoves b isBlack).map (fun m =>
    if checkForCheck (simulateMove b m) (!isBlack) then
      { m with disallowed := true,
               warning := some "Cannot make move as that would place or leave you in check." }
    else m)

/-! ## Claim C7: label / grid-coordinate round trips -/

/-- C7 counterexample: the parser accepts the upper-case label `A1`
(lower-casing its column letter), but printing the resulting coordinates
yields `a1`, not the original label; so label-to-grid-to-label is not the
identity on every accepted label. -/
theorem labelRoundTrip_counterexample :
    labelToGridReference "A1" = some (7, 0)
    ∧ gridReferenceToLabel (7, 0) = "a1"
    ∧ ("a1" : String) ≠ "A1" :=
  ⟨by decide, by decide, by decide⟩

/-- C7 (amended): grid-to-label-to-grid is the identity on every coordinate
of the 8x8 board, and label-to-grid-to-label is the identity on every
accepted label whose column letter is lower-case. -/
theorem labelRoundTrip_amended :
    (∀ r : Nat, r < 8 → ∀ c : Nat, c < 8 →
      labelToGridReference (gridReferenceToLabel (r, c)) = some (r, c))
    ∧ (∀ (s : String) (rc : Nat × Nat), labelToGridReference s = some rc →
        lowercaseColumn s → gridReferenceToLabel rc = s) := by
  constructor
  · decide
  · intro s rc h hl
    obtain ⟨data⟩ := s
    rcases data with _ | ⟨c0, _ | ⟨c1, _ | ⟨c2, rest⟩⟩⟩
    · exact absurd h (by simp [labelToGridReference])
    · exact absurd h (by simp [labelToGridReference])
    · simp only [labelToGridReference, charDigitVal] at h
      simp only [lowercaseColumn] at hl
      rw [hl] at h
      split at h
      case isTrue hcol =>
        split at h
        case h_2 => exact absurd h (by simp)
        case h_1 d hd =>
          split at h
          case isFalse => exact absurd h (by simp)
          case isTrue hrange =>
            have hdig : c1.isDigit := by
              by_contra hc
              simp [hc] at hd
            have hd48 : 48 ≤ c1.toNat ∧ c1.toNat ≤ 57 := by
              simp [Char.isDigit, Char.le_def, UInt32.le_def] at hdig
              exact hdig
            have hdv : d = c1.toNat - 48 := by
              simp [hdig] at hd
              omega
            injection h with h'
            subst h'
            simp only [gridReferenceToLabel]
            have e1 : 97 + (c0.toNat - 97) = c0.toNat := by omega
            have e2 : 48 + (8 - (8 - d)) = c1.toNat := by omega
            rw [e1, e2, Char.ofNat_toNat, Char.ofNat_toNat]
      case isFalse => exact absurd h (by simp)
    · exact absurd h (by simp [labelToGridReference])

/-- C7 witness: the round trips at the concrete coordinate (6, 4) and the
concrete label `e2`. -/
theorem labelRoundTrip_witness :
    labelToGridReference (gridReferenceToLabel (6, 4)) = some (6, 4)
    ∧ gridReferenceToLabel (6, 4) = "e2" :=
  ⟨labelRoundTrip_amended.1 6 (by decide) 4 (by decide),
   labelRoundTrip_amended.2 "e2" (6, 4) (by decide) (by decide)⟩

/-! ## Claim C4: material-insufficiency stalemate check -/

/-- Board with a lone white king against a black king and three black
knights (attacker piece count 4). -/
def loneKingThreeKnights : Board :=
  [[none, some ⟨.knight, true, (0, 1)⟩, some ⟨.knight, true, (0, 2)⟩, some ⟨.knight, true, (0, 3)⟩,
    some ⟨.king, true, (0, 4)⟩, none, none, none],
   [none, none, none, none, none, none, none, none],
   [none, none, none, none, none, none, none, none],
   [none, none, none, none, none, none, none, none],
   [none, none, none, none, none, none, none, none],
   [none, none, none, none, none, none, none, none],
   [none, none, none, none, none, none, none, none],
   [none, none, none, none, some ⟨.king, false, (7, 4)⟩, none, none, none]]

/-- C4 counterexample: white is reduced to a lone king and black (king and
three knights) holds no Queen, no Pawn, no Rook, fewer than two Bishops and
no Knight-Bishop pair, yet the check reports no draw, because the code first
gives up whenever the attacker has more than three pieces. -/
theorem checkForStalemate_counterexample :
    (piecesLeft loneKingThreeKnights false).map Piece.kind = [PieceKind.king]
    ∧ materialInsufficiencySpec loneKingThreeKnights true = true
    ∧ checkForStalemate loneKingThreeKnights true = false := by
  refine ⟨by decide, by decide, by decide⟩

/-- C4 (amended): when one side is reduced to a lone piece, the check
reports a draw if and only if the other side has at most three pieces on the
board and holds no Queen, no Pawn, no Rook, not two or more Bishops, and not
a Knight together with a Bishop. -/
theorem checkForStalemate_amended (b : Board) (attackerIsBlack : Bool)
    (h : (piecesLeft b (!attackerIsBlack)).length = 1) :
    checkForStalemate b attackerIsBlack =
      (decide ((piecesLeft b attackerIsBlack).length ≤ 3)
        && materialInsufficiencySpec b attackerIsBlack) := by
  have hd : ¬ ((piecesLeft b (!attackerIsBlack)).length > 1) := by omega
  by_cases h3 : (piecesLeft b attackerIsBlack).length > 3
  · have h4 : ¬ ((piecesLeft b attackerIsBlack).length ≤ 3) := by omega
    simp [checkForStalemate, materialInsufficiencySpec, hd, h3, h4]
  · have h4 : (piecesLeft b attackerIsBlack).length ≤ 3 := by omega
    have hcnt : ((piecesLeft b attackerIsBlack).map Piece.kind).count PieceKind.bishop > 1
        ↔ ((piecesLeft b attackerIsBlack).map Piece.kind).count PieceKind.bishop ≥ 2 := by
      omega
    by_cases h5 : (PieceKind.queen ∈ (piecesLeft b attackerIsBlack).map Piece.kind
        ∨ PieceKind.pawn ∈ (piecesLeft b attackerIsBlack).map Piece.kind
        ∨ PieceKind.rook ∈ (piecesLeft b attackerIsBlack).map Piece.kind
        ∨ ((piecesLeft b attackerIsBlack).map Piece.kind).count PieceKind.bishop ≥ 2
        ∨ (PieceKind.knight ∈ (piecesLeft b attackerIsBlack).map Piece.kind
            ∧ PieceKind.bishop ∈ (piecesLeft b attackerIsBlack).map Piece.kind))
    · simp [checkForStalemate, materialInsufficiencySpec, hd, h3, h4, hcnt, h5]
    · simp [checkForStalemate, materialInsufficiencySpec, hd, h3, h4, hcnt, h5]

/-- C4 witness: the amended equivalence evaluated at a king-versus-king
board (a reported draw). -/
theorem checkForStalemate_witness :
    checkForStalemate
      [[some ⟨.king, true, (0, 4)⟩, none, none, none, none, none, none, none],
       [], [], [], [], [], [],
       [some ⟨.king, false, (7, 4)⟩, none, none, none, none, none, none, none]] true =
      (decide (((piecesLeft
        [[some ⟨.king, true, (0, 4)⟩, none, none, none, none, none, none, none],
         [], [], [], [], [], [],
         [some ⟨.king, false, (7, 4)⟩, none, none, none, none, none, none, none]] true).length ≤ 3))
        && materialInsufficiencySpec
        [[some ⟨.king, true, (0, 4)⟩, none, none, none, none, none, none, none],
         [], [], [], [], [], [],
         [some ⟨.king, false, (7, 4)⟩, none, none, none, none, none, none, none]] true) :=
  checkForStalemate_amended _ true (by decide)

/-! ## Claim C1: the legality filter -/

/-- Every candidate move produced by `possibleMoves` starts out with its
`disallowed` flag clear. -/
theorem possibleMoves_not_disallowed (b : Board) (isBlack : Bool) (m : ChessMove)
    (hm : m ∈ possibleMoves b isBlack) : m.disallowed = false := by
  unfold possibleMoves at hm
  obtain ⟨p, _, hm⟩ := List.mem_flatMap.mp hm
  obtain ⟨t, _, rfl⟩ := List.mem_map.mp hm
  rfl

/-- C1: a move in the output of the legality filter is marked `disallowed`
exactly when simulating it on a copy of the board leaves the mover's own
king attacked by the opponent; consequently a move the filter leaves legal
never leaves the mover's own king attacked after simulation. -/
theorem legalityFilter_disallowed_iff (b : Board) (isBlack : Bool) (m : ChessMove)
    (hm : m ∈ movesWithThoseLeavingCheckDisallowed b isBlack) :
    (m.disallowed = true ↔ checkForCheck (simulateMove b m) (!isBlack) = true)
    ∧ (m.disallowed = false → checkForCheck (simulateMove b m) (!isBlack) = false) := by
  unfold movesWithThoseLeavingCheckDisallowed at hm
  obtain ⟨m0, hm0, rfl⟩ := List.mem_map.mp hm
  have h0 : m0.disallowed = false := possibleMoves_not_disallowed b isBlack m0 hm0
  by_cases hc : checkForCheck (simulateMove b m0) (!isBlack) = true
  · rw [if_pos hc]
    exact ⟨⟨fun _ => hc, fun _ => rfl⟩, fun hf => absurd hf (by simp)⟩
  · rw [if_neg hc]
    have hc' : checkForCheck (simulateMove b m0) (!isBlack) = false := by
      cases h : checkForCheck (simulateMove b m0) (!isBlack)
      · rfl
      · exact absurd h hc
    exact ⟨⟨fun hd => absurd (h0 ▸ hd) Bool.false_ne_true, fun hcc => absurd hcc hc⟩,
      fun _ => hc'⟩

/-- Board with the white rook on e2 pinned against the white king on e1 by
the black rook on e8 (black king on a8). -/
def pinnedRookBoard : Board :=
  [[some ⟨.king, true, (0, 0)⟩, none, none, none, some ⟨.rook, true, (0, 4)⟩, none, none, none],
   [none, none, none, none, none, none, none, none],
   [none, none, none, none, none, none, none, none],
   [none, none, none, none, none, none, none, none],
   [none, none, none, none, none, none, none, none],
   [none, none, none, none, none, none, none, none],
   [none, none, none, none, some ⟨.rook, false, (6, 4)⟩, none, none, none],
   [none, none, none, none, some ⟨.king, false, (7, 4)⟩, none, none, none]]

/-- The filter output for the pinned rook stepping off the e-file (e2 to
d2), which the filter marks disallowed. -/
def pinnedRookMove : ChessMove :=
  { fromSquare := (6, 4), toSquare := (6, 3), description := "Rook", isBlack := false,
    disallowed := true,
    warning := some "Cannot make move as that would place or leave you in check." }

/-- C1 witness: the legality filter equivalence evaluated at the pinned-rook
board and the move e2-d2. -/
theorem legalityFilter_witness :
    (pinnedRookMove.disallowed = true ↔
      checkForCheck (simulateMove pinnedRookBoard pinnedRookMove) true = true)
    ∧ (pinnedRookMove.disallowed = false →
      checkForCheck (simulateMove pinnedRookBoard pinnedRookMove) true = false) := by
  have h := legalityFilter_disallowed_iff pinnedRookBoard false pinnedRookMove (by decide)
  simpa using h

/-! ## Claim C3: castling eligibility -/

/-- `CastlingMove`: the compound king-and-rook move, its required-empty
squares, the squares the king may not pass through or land on while
attacked, and the flag an observer sets once the king or that rook has
moved (`_noLongerPossible`). -/
structure CastlingMove where
  fromSquare : Pos
  toSquare : Pos
  rookFrom : Pos
  rookTo : Pos
  isBlack : Bool
  emptyPositions : List Pos
  positionsCannotBeBeingAttacked : List Pos
  description : String
  noLongerPossible : Bool
deriving DecidableEq

/-- `CastlingMove.isCastlingOn`: available when the king and rook have not
moved, the in-between squares are all empty, the king's square is not in the
attacked set, and no pass-through square is in the attacked set. -/
def isCastlingOn (cm : CastlingMove) (positionsBeingAttacked positionsEmpty : List Pos) :
    Bool :=
  if cm.noLongerPossible then false
  else if ¬ (∀ p ∈ cm.emptyPositions, p ∈ positionsEmpty) then false
  else if cm.fromSquare ∈ positionsBeingAttacked then false
  else if cm.positionsCannotBeBeingAttacked.any (fun p => decide (p ∈ positionsBeingAttacked))
  then false
  else true

/-- The white king-side `CastlingMove` created by `newGame` (e1-g1 with the
h1 rook), with the given has-moved flag. -/
def whiteKingSideCastle (flag : Bool) : CastlingMove :=
  ⟨(7, 4), (7, 6), (7, 7), (7, 5), false, [(7, 5), (7, 6)], [(7, 5), (7, 6)],
    "White King Side Castling", flag⟩

/-- The white queen-side `CastlingMove` created by `newGame` (e1-c1 with the
a1 rook). -/
def whiteQueenSideCastle (flag : Bool) : CastlingMove :=
  ⟨(7, 4), (7, 2), (7, 0), (7, 3), false, [(7, 1), (7, 2), (7, 3)], [(7, 2), (7, 3)],
    "White Queen Side Castling", flag⟩

/-- The black king-side `CastlingMove` created by `newGame` (e8-g8 with the
h8 rook). -/
def blackKingSideCastle (flag : Bool) : CastlingMove :=
  ⟨(0, 4), (0, 6), (0, 7), (0, 5), true, [(0, 5), (0, 6)], [(0, 5), (0, 6)],
    "Black King Side Castling", flag⟩

/-- The black queen-side `CastlingMove` created by `newGame` (e8-c8 with the
a8 rook). -/
def blackQueenSideCastle (flag : Bool) : CastlingMove :=
  ⟨(0, 4), (0, 2), (0, 0), (0, 3), true, [(0, 1), (0, 2), (0, 3)], [(0, 2), (0, 3)],
    "Black Queen Side Castling", flag⟩

/-- The destination squares of the legal (non-disallowed) moves of one
colour, as `_analyseBoard` collects them for the white castling checks. -/
def legalDestinations (b : Board) (isBlack : Bool) : List Pos :=
  ((movesWithThoseLeavingCheckDisallowed b isBlack).filter (fun m => !m.disallowed)).map
    (fun m => m.toSquare)

/-- The first-rank squares of one side that are currently empty, as
`_analyseBoard` collects them. -/
def emptyRankSquares (b : Board) (row : Nat) : List Pos :=
  (([0, 1, 2, 3, 4, 5, 6, 7] : List Nat).map (fun c => ((row, c) : Pos))).filter
    (fun s => boardIsEmpty b s)

/-- The white castling section of `ChessGame._analyseBoard`: the attacked
set is the destination squares of black's legal moves. -/
def whiteCastlingAnalysis (b : Board) (ksFlag qsFlag : Bool) : List CastlingMove :=
  let positionsBeingAttacked := legalDestinations b true
  let emptyFirstRankSquares := emptyRankSquares b 7
  (if isCastlingOn (whiteKingSideCastle ksFlag) positionsBeingAttacked emptyFirstRankSquares
   then [whiteKingSideCastle ksFlag] else [])
  ++ (if isCastlingOn (whiteQueenSideCastle qsFlag) positionsBeingAttacked emptyFirstRankSquares
      then [whiteQueenSideCastle qsFlag] else [])

/-- The black castling section of `ChessGame._analyseBoard` as coded: the
source builds `set([s for s in WHITE_MOVES if not s.disallowed])` - a set of
`ChessMove` objects, not of their destination squares (the `.toSquare` of
the white branch is missing).  A square is therefore never a member of that
set and its intersection with a set of squares is always empty, so the two
attack tests of `isCastlingOn` can never veto black castling; this is
embedded by passing an empty attacked list. -/
def blackCastlingAnalysisAsCoded (b : Board) (ksFlag qsFlag : Bool) : List CastlingMove :=
  let emptyFinalRankSquares := emptyRankSquares b 0
  (if isCastlingOn (blackKingSideCastle ksFlag) [] emptyFinalRankSquares
   then [blackKingSideCastle ksFlag] else [])
  ++ (if isCastlingOn (blackQueenSideCastle qsFlag) [] emptyFinalRankSquares
      then [blackQueenSideCastle qsFlag] else [])

/-- Board exhibiting the black-castling attack bug: black king e8 and rook
h8 unmoved with f8, g8 empty, and a white rook on f3 whose legal move
Rf3-f8 attacks the pass-through square f8 (white king on a1). -/
def blackCastleBugBoard : Board :=
  [[none, none, none, none, some ⟨.king, true, (0, 4)⟩, none, none, some ⟨.rook, true, (0, 7)⟩],
   [none, none, none, none, none, none, none, none],
   [none, none, none, none, none, none, none, none],
   [none, none, none, none, none, none, none, none],
   [none, none, none, none, none, none, none, none],
   [none, none, none, none, none, some ⟨.rook, false, (5, 5)⟩, none, none],
   [none, none, none, none, none, none, none, none],
   [some ⟨.king, false, (7, 0)⟩, none, none, none, none, none, none, none]]

/-- C3: evaluation at the failing input.  The pass-through square f8 is a
destination of a legal white move, so by the claimed condition (d) black
king-side castling must not be offered; the analysis nevertheless offers it,
because the black branch of `_analyseBoard` collects move objects instead of
their destination squares. -/
theorem blackCastling_attackBug_eval :
    blackKingSideCastle false ∈ blackCastlingAnalysisAsCoded blackCastleBugBoard false false
    ∧ (0, 5) ∈ legalDestinations blackCastleBugBoard false
    ∧ (0, 5) ∈ (blackKingSideCastle false).positionsCannotBeBeingAttacked := by
  refine ⟨by decide, by decide, by decide⟩

/-! ## Game-state machine (`ChessGame`) -/

/-- Failures raised inside `_analyseBoard` / `_interpretAnalysis`: more than
one simultaneously promoted pawn (`ValueError`), or a promoted pawn of the
wrong colour (`Exception`). -/
inductive AnalysisError where
  | tooManyPromotedPawns
  | promotedPawnWrongColour
deriving DecidableEq

/-- Errors `ChessGame` raises: `IncorrectPlayerError` from `makeMove`, the
`ValueError` of an unrecognized promotion choice in `promotePawn`, the
`AttributeError` of promoting when the analysis holds no promoted pawn, and
analysis failures propagating out. -/
inductive ChessError where
  | incorrectPlayer
  | invalidPromotionChoice
  | missingPromotedPawn
  | analysisFailure (e : AnalysisError)
deriving DecidableEq

/-- The outcome token `_interpretAnalysis` returns (the event strings of
`ChessConstants`); `none` is the fall-through `None`. -/
inductive GameEvent where
  | pawnPromoted
  | whiteInCheckMate
  | blackInCheckMate
  | whiteInCheck
  | blackInCheck
  | stalemate
deriving DecidableEq

/-- `EnPassant` move data: the capturing pawn's from/to squares, its colour
and the square of the pawn being captured.  (The source also stores the
player object allowed to play it, used only for move listing.) -/
structure EnPassantMove where
  fromSquare : Pos
  toSquare : Pos
  isBlack : Bool
  removingPieceAtSquare : Pos
deriving DecidableEq

/-- `PawnPromotion` move data after construction: the square, the colour and
the already-sanitised choice letter. -/
structure PawnPromotionMove where
  square : Pos
  isBlack : Bool
  choice : String
deriving DecidableEq

/-- Upper-casing of a string (`str.upper`), written over the character list
so that it evaluates by kernel reduction (promotion choices are ASCII). -/
def stringToUpper (s : String) : String :=
  ⟨s.data.map Char.toUpper⟩

/-- `PawnPromotion.__init__`: the choice defaults to `Q` and is replaced by
the upper-cased argument only when that is one of `Q`, `R`, `B`, `K`. -/
def mkPawnPromotion (square : Pos) (isBlack : Bool) (choice : String) : PawnPromotionMove :=
  { square := square, isBlack := isBlack,
    choice := if stringToUpper choice ∈ (["Q", "R", "B", "K"] : List String)
              then stringToUpper choice else "Q" }

/-- The `_noLongerPossible` flags of the four `CastlingMove` trackers
created by `newGame` (true once the relevant king or rook has moved). -/
structure CastleFlags where
  whiteKS : Bool
  whiteQS : Bool
  blackKS : Bool
  blackQS : Bool
deriving DecidableEq

/-- The analysis snapshot dictionary `_boardAnalysis`. -/
structure Analysis where
  whiteInCheck : Bool
  blackInCheck : Bool
  whiteMoves : List ChessMove
  whiteInCheckMate : Bool
  blackMoves : List ChessMove
  blackInCheckMate : Bool
  pawnPromoted : Option Piece
  whiteCastlingMoves : Option (List CastlingMove)
  blackCastlingMoves : Option (List CastlingMove)
  enPassant : Option (List EnPassantMove)
deriving DecidableEq

/-- Game status constants (`STATUS_IN_PROGRESS`). -/
def statusInProgress : Nat := 0

/-- Game status constant `STATUS_NEW_GAME_NO_MOVES`. -/
def statusNewGameNoMoves : Nat := 1

/-- Game status constant `STATUS_GAME_OVER`. -/
def statusGameOver : Nat := 2

/-- `ChessGame._getEnPassant`: after a pawn has just advanced two ranks, an
opposing pawn laterally adjacent to its landing square yields a synthesized
`EnPassant` move onto the square behind the moved pawn.  (The unreachable
`None` destination of an off-board offset is totalised to (0, 0); the move
record construction would raise in the source.) -/
def getEnPassant (b : Board) (moveFrom moveTo : Pos) : List EnPassantMove :=
  match pieceAtPos b moveTo with
  | none => []
  | some pieceThatMoved =>
    if pieceThatMoved.kind ≠ PieceKind.pawn then []
    else if ((moveFrom.1 : Int) - (moveTo.1 : Int)).natAbs = 1 then []
    else
      ([(0, 1), (0, -1)] : List (Int × Int)).flatMap (fun i =>
        match positionXandYFrom b moveTo i with
        | none => []
        | some adj =>
          match pieceAtPos b adj with
          | none => []
          | some p =>
            if p.isBlack ≠ pieceThatMoved.isBlack ∧ p.kind = PieceKind.pawn then
              [{ fromSquare := p.pos,
                 toSquare := (positionXandYFrom b pieceThatMoved.pos
                   ((if p.isBlack then 1 else -1), 0)).getD (0, 0),
                 isBlack := p.isBlack,
                 removingPieceAtSquare := pieceThatMoved.pos }]
            else [])

/-- `ChessGame._interpretAnalysis`: promoted pawn first (of the wrong colour
a fatal fault), then the checkmate and check flags, then stalemate by no
legal move for the side to move, then material-insufficiency stalemate. -/
def interpretAnalysis (a : Analysis) (b : Board) (currentIsBlack : Bool) :
    Except AnalysisError (Option GameEvent) :=
  match a.pawnPromoted with
  | some pp =>
    if pp.isBlack = (!currentIsBlack) then Except.ok (some GameEvent.pawnPromoted)
    else Except.error AnalysisError.promotedPawnWrongColour
  | none =>
    if a.whiteInCheckMate then Except.ok (some GameEvent.whiteInCheckMate)
    else if a.blackInCheckMate then Except.ok (some GameEvent.blackInCheckMate)
    else if a.whiteInCheck then Except.ok (some GameEvent.whiteInCheck)
    else if a.blackInCheck then Except.ok (some GameEvent.blackInCheck)
    else
      let currentPlayerMoves := if currentIsBlack then a.blackMoves else a.whiteMoves
      if (currentPlayerMoves.filter (fun m => !m.disallowed)).length = 0 then
        Except.ok (some GameEvent.stalemate)
      else if checkForStalemate b false || checkForStalemate b true then
        Except.ok (some GameEvent.stalemate)
      else Except.ok none

/-- `ChessGame._analyseBoard`: runs the move calculator for both sides,
scans the two back ranks for a promoted pawn (two or more being a fatal
fault), attaches the castling options of both sides and, when a move
context is supplied, the en-passant moves; finally interprets the analysis.
`currentIsBlack` is the parity-derived colour of `_currentPlayer()` at the
time of the call. -/
def analyseBoard (b : Board) (flags : CastleFlags) (moveCtx : Option (Pos × Pos))
    (currentIsBlack : Bool) : Except AnalysisError (Option GameEvent × Analysis) :=
  let whiteInCheck := checkForCheck b true
  let blackInCheck := checkForCheck b false
  let whiteMoves := movesWithThoseLeavingCheckDisallowed b false
  let whiteInCheckMate :=
    decide ((whiteMoves.filter (fun x => !x.disallowed)).length = 0) && whiteInCheck
  let blackMoves := movesWithThoseLeavingCheckDisallowed b true
  let blackInCheckMate :=
    decide ((blackMoves.filter (fun x => !x.disallowed)).length = 0) && blackInCheck
  let promotedPawns :=
    (((b.get? 0).getD []).filterMap id).filter
      (fun p => p.kind == PieceKind.pawn && !p.isBlack)
    ++ (((b.get? 7).getD []).filterMap id).filter
      (fun p => p.kind == PieceKind.pawn && p.isBlack)
  if promotedPawns.length ≥ 2 then Except.error AnalysisError.tooManyPromotedPawns
  else
    let whiteCastling := whiteCastlingAnalysis b flags.whiteKS flags.whiteQS
    let blackCastling := blackCastlingAnalysisAsCoded b flags.blackKS flags.blackQS
    let a : Analysis :=
      { whiteInCheck := whiteInCheck, blackInCheck := blackInCheck,
        whiteMoves := whiteMoves, whiteInCheckMate := whiteInCheckMate,
        blackMoves := blackMoves, blackInCheckMate := blackInCheckMate,
        pawnPromoted := promotedPawns.head?,
        whiteCastlingMoves := if whiteCastling.length > 0 then some whiteCastling else none,
        blackCastlingMoves := if blackCastling.length > 0 then some blackCastling else none,
        enPassant := moveCtx.map (fun ft => getEnPassant b ft.1 ft.2) }
    (interpretAnalysis a b currentIsBlack).map (fun ev => (ev, a))

/-- The game state: status, move counter (parity gives the side to move,
white on even counts), the live board, the current analysis snapshot and the
castling trackers' flags.  (The two player objects are represented by their
colours where needed.) -/
structure GameState where
  status : Nat
  moveCount : Nat
  board : Board
  analysis : Analysis
  flags : CastleFlags
deriving DecidableEq

/-- The recognized promotion choices of `promotePawn` and the piece kind
each produces (upper-cased comparison; `K` is the Knight). -/
def promotionPieceKind (choice : String) : Option PieceKind :=
  if stringToUpper choice = "Q" then some PieceKind.queen
  else if stringToUpper choice = "R" then some PieceKind.rook
  else if stringToUpper choice = "B" then some PieceKind.bishop
  else if stringToUpper choice = "K" then some PieceKind.knight
  else none

/-- `ChessGame.promotePawn`: an unrecognized choice raises before any
mutation; a recognized one removes the pawn, places the new piece of the
pawn's colour at the pawn's position, and recomputes the analysis snapshot
(an analysis failure propagates after the board has been mutated but before
the snapshot is reassigned). -/
def promotePawn (g : GameState) (pawn : Piece) (pieceChoice : String) :
    GameState × Option ChessError :=
  match promotionPieceKind pieceChoice with
  | none => (g, some ChessError.invalidPromotionChoice)
  | some k =>
    let newPiece : Piece := ⟨k, pawn.isBlack, pawn.pos⟩
    let b2 := ((g.board.removePiece pawn.pos).2).setPiece newPiece
    match analyseBoard b2 g.flags none (decide (g.moveCount % 2 = 1)) with
    | Except.ok pair => ({ g with board := b2, analysis := pair.2 }, none)
    | Except.error e => ({ g with board := b2 }, some (ChessError.analysisFailure e))

/-- The move argument of `makeMove`: a plain `ChessMove` or one of its
subclasses.  (A non-`ChessMove` argument raises a generic fatal exception in
the source and is excluded by typing.) -/
inductive GMove where
  | basic (m : ChessMove)
  | pawnPromotion (p : PawnPromotionMove)
  | enPassant (m : EnPassantMove)
  | castling (c : CastlingMove)
deriving DecidableEq

/-- The from/to squares of a game move (`move.fromSquare`,
`move.toSquare`; for castling these are the king's squares). -/
def moveFromTo : GMove → Pos × Pos
  | .basic m => (m.fromSquare, m.toSquare)
  | .pawnPromotion p => (p.square, p.square)
  | .enPassant m => (m.fromSquare, m.toSquare)
  | .castling c => (c.fromSquare, c.toSquare)

/-- The observer subscriptions of the castling trackers: moving a piece away
from a king or rook home square permanently disables the castling moves
observing that piece.  (The source notifies through the concrete king/rook
objects; in any reachable game a piece moving off such a square while the
flag is still clear can only be that king or rook, so keying on the
from-square is behaviourally equivalent.) -/
def updateCastleFlags (f : CastleFlags) (fromSq : Pos) : CastleFlags :=
  { whiteKS := f.whiteKS || decide (fromSq = ((7, 4) : Pos) ∨ fromSq = ((7, 7) : Pos)),
    whiteQS := f.whiteQS || decide (fromSq = ((7, 4) : Pos) ∨ fromSq = ((7, 0) : Pos)),
    blackKS := f.blackKS || decide (fromSq = ((0, 4) : Pos) ∨ fromSq = ((0, 7) : Pos)),
    blackQS := f.blackQS || decide (fromSq = ((0, 4) : Pos) ∨ fromSq = ((0, 0) : Pos)) }

/-- `ChessGame.makeMove`: returns immediately when the game is over; rejects
a player whose colour does not match the move-count parity; a
`PawnPromotion` dispatches to `promotePawn` on the analysis' promoted pawn
(raising when there is none); otherwise the move is applied to the board
(plus the en-passant capture or the castling rook move), the counter is
incremented, the analysis recomputed and the status updated to game-over
exactly on a checkmate or stalemate event.  The result is the new state,
the raised error if any, and the returned event. -/
def makeMove (g : GameState) (playerIsBlack : Bool) (move : GMove) :
    GameState × Option ChessError × Option GameEvent :=
  if g.status = statusGameOver then (g, none, none)
  else if playerIsBlack ≠ decide (g.moveCount % 2 = 1) then
    (g, some ChessError.incorrectPlayer, none)
  else
    match move with
    | .pawnPromotion pp =>
      match g.analysis.pawnPromoted with
      | none => (g, some ChessError.missingPromotedPawn, none)
      | some pawn =>
        let r := promotePawn g pawn pp.choice
        (r.1, r.2, none)
    | mv =>
      let ft := moveFromTo mv
      let b1 := (g.board.movePiece ft.1 ft.2).1
      let flags1 := updateCastleFlags g.flags ft.1
      let b2 := match mv with
        | .enPassant ep => ((b1.removePiece ep.removingPieceAtSquare).2)
        | _ => b1
      let bf : Board × CastleFlags := match mv with
        | .castling cm => ((b2.movePiece cm.rookFrom cm.rookTo).1, updateCastleFlags flags1 cm.rookFrom)
        | _ => (b2, flags1)
      let mc := g.moveCount + 1
      match analyseBoard bf.1 bf.2 (some ft) (decide (mc % 2 = 1)) with
      | Except.error e =>
        ({ g with board := bf.1, flags := bf.2, moveCount := mc },
          some (ChessError.analysisFailure e), none)
      | Except.ok pair =>
        let status :=
          if pair.1 = some GameEvent.blackInCheckMate ∨ pair.1 = some GameEvent.whiteInCheckMate
              ∨ pair.1 = some GameEvent.stalemate
          then statusGameOver else statusInProgress
        ({ g with board := bf.1, flags := bf.2, moveCount := mc,
                  analysis := pair.2, status := status },
          none, pair.1)

/-- An empty analysis snapshot value, used for concrete witness states. -/
def emptyAnalysis : Analysis :=
  ⟨false, false, [], false, [], false, none, none, none, none⟩

/-- All four castling trackers still possible. -/
def flagsNone : CastleFlags := ⟨false, false, false, false⟩

/-- An empty 8x8 board. -/
def emptyBoard : Board := List.replicate 8 (List.replicate 8 none)

/-- A concrete finished game state (status `GAME_OVER`). -/
def gameOverState : GameState := ⟨statusGameOver, 0, emptyBoard, emptyAnalysis, flagsNone⟩

/-- A concrete black pawn push, used as an arbitrary move argument. -/
def someBlackMove : GMove := GMove.basic ⟨(1, 4), (2, 4), "Pawn", true, false, none⟩

/-- `promotePawn` can fail with the invalid-choice error or an analysis
failure, never with the wrong-turn error. -/
theorem promotePawn_error_ne_incorrectPlayer (g : GameState) (pawn : Piece) (c : String) :
    (promotePawn g pawn c).2 ≠ some ChessError.incorrectPlayer := by
  cases hk : promotionPieceKind c with
  | none => simp [promotePawn, hk]
  | some k =>
    unfold promotePawn
    rw [hk]
    dsimp only
    split <;> simp

/-! ## Claim C9: makeMove in a finished game -/

/-- C9: when the status is `GAME_OVER`, `makeMove` returns `None`
immediately for any player and move, leaving the state (board, counter,
analysis, status) unchanged and raising no error. -/
theorem makeMove_gameOver (g : GameState) (playerIsBlack : Bool) (move : GMove)
    (h : g.status = statusGameOver) :
    makeMove g playerIsBlack move = (g, none, none) := by
  simp [makeMove, h]

/-- C9 witness: a finished game, with the player colour deliberately
mismatched to the turn parity; no error is raised and nothing changes. -/
theorem makeMove_gameOver_witness :
    makeMove gameOverState true someBlackMove = (gameOverState, none, none) :=
  makeMove_gameOver gameOverState true someBlackMove rfl

/-! ## Claim C5: turn-order enforcement -/

/-- C5 counterexample: in a finished game the turn parity demands white
(move count 0) and the mover is black, yet `makeMove` raises no wrong-turn
error - it returns `None` - so the claimed behaviour does not hold for
every game state. -/
theorem wrongTurn_counterexample :
    (true ≠ decide (gameOverState.moveCount % 2 = 1))
    ∧ (makeMove gameOverState true someBlackMove).2.1 = none := by
  refine ⟨by decide, by rfl⟩

/-- C5 (amended): in a game that is not over, a move by a player whose
colour does not match the turn parity fails with the wrong-turn error and
leaves the state unchanged, while a colour matching the parity is never
rejected with that error. -/
theorem wrongTurn_amended (g : GameState) (playerIsBlack : Bool) (move : GMove)
    (h : g.status ≠ statusGameOver) :
    (playerIsBlack ≠ decide (g.moveCount % 2 = 1) →
      makeMove g playerIsBlack move = (g, some ChessError.incorrectPlayer, none))
    ∧ (playerIsBlack = decide (g.moveCount % 2 = 1) →
      (makeMove g playerIsBlack move).2.1 ≠ some ChessError.incorrectPlayer) := by
  constructor
  · intro hp
    simp [makeMove, h, hp]
  · intro hp
    cases move with
    | pawnPromotion pp =>
      cases hpp : g.analysis.pawnPromoted with
      | none => simp [makeMove, h, hp, hpp]
      | some pawn =>
        simp only [makeMove, h, if_false, hp]
        simp only [hpp]
        simpa using promotePawn_error_ne_incorrectPlayer g pawn pp.choice
    | basic m =>
      simp only [makeMove, h, if_false, hp]
      split
      next hne => exact absurd rfl hne
      next =>
        split <;> simp
    | enPassant m =>
      simp only [makeMove, h, if_false, hp]
      split
      next hne => exact absurd rfl hne
      next =>
        split <;> simp
    | castling c =>
      simp only [makeMove, h, if_false, hp]
      split
      next hne => exact absurd rfl hne
      next =>
        split <;> simp

/-- A concrete in-progress game state on the empty-ish board (both kings
present so analysis succeeds), used to witness the turn-order claims. -/
def kingsOnlyBoard : Board :=
  [[none, none, none, none, some ⟨.king, true, (0, 4)⟩, none, none, none],
   [none, none, none, none, none, none, none, none],
   [none, none, none, none, none, none, none, none],
   [none, none, none, none, none, none, none, none],
   [none, none, none, none, none, none, none, none],
   [none, none, none, none, none, none, none, none],
   [none, none, none, none, none, none, none, none],
   [none, none, none, none, some ⟨.king, false, (7, 4)⟩, none, none, none]]

/-- A concrete in-progress game state, white to move. -/
def inProgressState : GameState :=
  ⟨statusInProgress, 0, kingsOnlyBoard, emptyAnalysis, flagsNone⟩

/-- C5 witness: at the concrete in-progress state, a black move is rejected
with the wrong-turn error and a white move is not. -/
theorem wrongTurn_witness :
    (makeMove inProgressState true someBlackMove =
      (inProgressState, some ChessError.incorrectPlayer, none))
    ∧ (makeMove inProgressState false someBlackMove).2.1 ≠ some ChessError.incorrectPlayer :=
  ⟨(wrongTurn_amended inProgressState true someBlackMove (by decide)).1 (by decide),
   (wrongTurn_amended inProgressState false someBlackMove (by decide)).2 (by decide)⟩

/-! ## Claim C6: promotePawn -/

/-- Writing a cell preserves the number of rows. -/
theorem setCell_length (b : Board) (r c : Nat) (v : Option Piece) :
    (setCell b r c v).length = b.length := by
  unfold setCell
  split
  · rfl
  · exact List.length_set b r _

/-- Writing a cell preserves the length of every row. -/
theorem setCell_row_length (b : Board) (r c : Nat) (v : Option Piece) (r' : Nat) :
    (((setCell b r c v).get? r').getD []).length = ((b.get? r').getD []).length := by
  unfold setCell
  split
  · rfl
  case h_2 row hrow =>
    have hlt : r < b.length := (List.get?_eq_some.mp hrow).1
    by_cases he : r = r'
    · subst he
      rw [List.get?_eq_getElem?, List.getElem?_set_self hlt, hrow]
      simp
    · rw [List.get?_eq_getElem?, List.getElem?_set_ne he, ← List.get?_eq_getElem?]

/-- Placing a piece with `Board.setPiece` makes its own square hold it, when
the position is on the grid. -/
theorem pieceAtPos_setPiece_self (b : Board) (p : Piece)
    (h1 : p.pos.1 < b.length) (h2 : p.pos.2 < ((b.get? p.pos.1).getD []).length) :
    pieceAtPos (b.setPiece p) p.pos = some p := by
  have hg : b.get? p.pos.1 = some b[p.pos.1] := by
    rw [List.get?_eq_getElem?]
    exact List.getElem?_eq_getElem h1
  have h2' : p.pos.2 < b[p.pos.1].length := by
    rw [hg] at h2
    simpa using h2
  unfold pieceAtPos pieceAtGridReference Board.setPiece setCell
  rw [hg]
  dsimp only
  rw [List.get?_eq_getElem?, List.getElem?_set_self h1]
  dsimp only [Option.bind]
  rw [List.get?_eq_getElem?, List.getElem?_set_self h2']
  rfl

/-- C6: `promotePawn` with an unrecognized replacement kind fails with the
invalid-promotion-choice error and returns the state unchanged (board,
move count and analysis snapshot included); with a recognized kind it
replaces the pawn's square by a piece of the chosen kind and the pawn's
colour, leaves the move count alone, and stores the recomputed analysis of
the updated board. -/
theorem promotePawn_spec (g : GameState) (pawn : Piece) (choice : String)
    (hr : pawn.pos.1 < g.board.length)
    (hc : pawn.pos.2 < ((g.board.get? pawn.pos.1).getD []).length) :
    (promotionPieceKind choice = none →
      promotePawn g pawn choice = (g, some ChessError.invalidPromotionChoice))
    ∧ (∀ k, promotionPieceKind choice = some k →
        (promotePawn g pawn choice).1.board =
          ((g.board.removePiece pawn.pos).2).setPiece ⟨k, pawn.isBlack, pawn.pos⟩
        ∧ pieceAtPos (promotePawn g pawn choice).1.board pawn.pos =
            some ⟨k, pawn.isBlack, pawn.pos⟩
        ∧ (promotePawn g pawn choice).1.moveCount = g.moveCount
        ∧ (∀ ev a,
            analyseBoard (((g.board.removePiece pawn.pos).2).setPiece
                ⟨k, pawn.isBlack, pawn.pos⟩) g.flags none (decide (g.moveCount % 2 = 1))
              = Except.ok (ev, a) →
            (promotePawn g pawn choice).1.analysis = a
            ∧ (promotePawn g pawn choice).2 = none)) := by
  constructor
  · intro hk
    simp [promotePawn, hk]
  · intro k hk
    have hb : (promotePawn g pawn choice).1.board =
        ((g.board.removePiece pawn.pos).2).setPiece ⟨k, pawn.isBlack, pawn.pos⟩ := by
      unfold promotePawn
      rw [hk]
      dsimp only
      split <;> rfl
    refine ⟨hb, ?_, ?_, ?_⟩
    · rw [hb]
      apply pieceAtPos_setPiece_self
      · show pawn.pos.1 < (setCell g.board pawn.pos.1 pawn.pos.2 none).length
        rw [setCell_length]
        exact hr
      · show pawn.pos.2 <
          (((setCell g.board pawn.pos.1 pawn.pos.2 none).get? pawn.pos.1).getD []).length
        rw [setCell_row_length]
        exact hc
    · unfold promotePawn
      rw [hk]
      dsimp only
      split <;> rfl
    · intro ev a hok
      unfold promotePawn
      rw [hk]
      dsimp only
      rw [hok]
      exact ⟨rfl, rfl⟩

/-- Board for the promotion witness: a white pawn on c8 (its promotion
rank), both kings present. -/
def promotionBoard : Board :=
  [[none, none, some ⟨.pawn, false, (0, 2)⟩, none, none, none, none,
    some ⟨.king, true, (0, 7)⟩],
   [none, none, none, none, none, none, none, none],
   [none, none, none, none, none, none, none, none],
   [none, none, none, none, none, none, none, none],
   [none, none, none, none, none, none, none, none],
   [none, none, none, none, none, none, none, none],
   [none, none, none, none, none, none, none, none],
   [none, none, none, none, some ⟨.king, false, (7, 4)⟩, none, none, none]]

/-- The white pawn of `promotionBoard`. -/
def promotionPawn : Piece := ⟨.pawn, false, (0, 2)⟩

/-- Game state holding `promotionBoard`, black having just moved. -/
def promotionState : GameState :=
  ⟨statusInProgress, 2, promotionBoard, emptyAnalysis, flagsNone⟩

/-- C6 witness: at the concrete promotion state, the unrecognized choice
`X` fails leaving the state unchanged, and the recognized choice `q` puts a
white Queen on the pawn's square. -/
theorem promotePawn_witness :
    promotePawn promotionState promotionPawn "X" =
      (promotionState, some ChessError.invalidPromotionChoice)
    ∧ pieceAtPos (promotePawn promotionState promotionPawn "q").1.board (0, 2) =
        some ⟨.queen, false, (0, 2)⟩ :=
  ⟨(promotePawn_spec promotionState promotionPawn "X" (by decide) (by decide)).1 (by decide),
   ((promotePawn_spec promotionState promotionPawn "q" (by decide) (by decide)).2
      PieceKind.queen (by decide)).2.1⟩

/-! ## Claim C10: PawnPromotion construction defaults to Queen -/

/-- The sanitised choice always has a piece kind. -/
theorem promotionPieceKind_mkPawnPromotion (sq : Pos) (blk : Bool) (choice : String) :
    promotionPieceKind (mkPawnPromotion sq blk choice).choice ≠ none := by
  unfold mkPawnPromotion
  dsimp only
  split
  case isTrue hmem =>
    simp only [List.mem_cons, List.not_mem_nil, or_false] at hmem
    rcases hmem with h | h | h | h <;> (rw [h]; decide)
  case isFalse => decide

/-- C10: the `PawnPromotion` constructor silently replaces any choice whose
upper-casing is not one of `Q`, `R`, `B`, `K` with `Q`; hence applying a
constructed `PawnPromotion` through `makeMove` never raises the
invalid-promotion-choice error, and an unrecognized choice promotes to a
Queen. -/
theorem pawnPromotion_defaultsToQueen (g : GameState) (playerIsBlack : Bool)
    (sq : Pos) (blk : Bool) (choice : String) :
    ((mkPawnPromotion sq blk choice).choice ∈ (["Q", "R", "B", "K"] : List String))
    ∧ (stringToUpper choice ∉ (["Q", "R", "B", "K"] : List String) →
        (mkPawnPromotion sq blk choice).choice = "Q")
    ∧ ((makeMove g playerIsBlack (GMove.pawnPromotion (mkPawnPromotion sq blk choice))).2.1
        ≠ some ChessError.invalidPromotionChoice)
    ∧ (∀ pawn, g.status ≠ statusGameOver → playerIsBlack = decide (g.moveCount % 2 = 1) →
        g.analysis.pawnPromoted = some pawn →
        stringToUpper choice ∉ (["Q", "R", "B", "K"] : List String) →
        (makeMove g playerIsBlack (GMove.pawnPromotion (mkPawnPromotion sq blk choice))).1.board
          = ((g.board.removePiece pawn.pos).2).setPiece ⟨.queen, pawn.isBlack, pawn.pos⟩) := by
  refine ⟨?_, ?_, ?_, ?_⟩
  · unfold mkPawnPromotion
    split
    case isTrue h => simpa using h
    case isFalse => simp
  · intro hnot
    simp [mkPawnPromotion, hnot]
  · unfold makeMove
    split
    · simp
    · split
      · simp
      · dsimp only
        cases hpp : g.analysis.pawnPromoted with
        | none => simp [hpp]
        | some pawn =>
          simp only [hpp]
          cases hk : promotionPieceKind (mkPawnPromotion sq blk choice).choice with
          | none => exact absurd hk (promotionPieceKind_mkPawnPromotion sq blk choice)
          | some k =>
            unfold promotePawn
            rw [hk]
            dsimp only
            split <;> simp
  · intro pawn hstatus hparity hpp hnot
    have hchoice : (mkPawnPromotion sq blk choice).choice = "Q" := by
      simp [mkPawnPromotion, hnot]
    have hk : promotionPieceKind (mkPawnPromotion sq blk choice).choice
        = some PieceKind.queen := by
      rw [hchoice]
      decide
    unfold makeMove
    rw [if_neg hstatus, if_neg (by rw [hparity]; exact fun hne => hne rfl)]
    dsimp only
    rw [hpp]
    dsimp only
    unfold promotePawn
    rw [hk]
    dsimp only
    split <;> rfl

/-- Game state whose analysis snapshot records the promoted pawn of
`promotionBoard`, as the analysis after black's last move would. -/
def queenPromotionState : GameState :=
  ⟨statusInProgress, 2, promotionBoard,
    { emptyAnalysis with pawnPromoted := some promotionPawn }, flagsNone⟩

/-- C10 witness: at the concrete promotion state, applying a constructed
`PawnPromotion` with the junk choice `zz` raises no invalid-choice error
and yields a white Queen board. -/
theorem pawnPromotion_defaultsToQueen_witness :
    ((mkPawnPromotion (0, 2) false "zz").choice ∈ (["Q", "R", "B", "K"] : List String))
    ∧ ((makeMove promotionState false (GMove.pawnPromotion (mkPawnPromotion (0, 2) false "zz"))).2.1
        ≠ some ChessError.invalidPromotionChoice)
    ∧ ((makeMove queenPromotionState false
          (GMove.pawnPromotion (mkPawnPromotion (0, 2) false "zz"))).1.board
        = ((queenPromotionState.board.removePiece (0, 2)).2).setPiece
            ⟨.queen, false, (0, 2)⟩) :=
  ⟨(pawnPromotion_defaultsToQueen promotionState false (0, 2) false "zz").1,
   (pawnPromotion_defaultsToQueen promotionState false (0, 2) false "zz").2.2.1,
   (pawnPromotion_defaultsToQueen queenPromotionState false (0, 2) false "zz").2.2.2
     promotionPawn (by decide) (by decide) (by decide) (by decide)⟩

/-! ## Claim C8: board copy isolation

The pure board value above cannot express the aliasing the claim is about:
in the source, `Board.move` mutates the moved piece object in place
(`setPosition`), so a shallow copy would corrupt the original board's
pieces.  `copyOfBoard` instead deep-copies the grid.  To settle the claim,
boards are modelled with an explicit object store: pieces are addressed by
identity (store index), a grid cell holds a piece id, and the mutating
operations update the store exactly where the source mutates piece
objects. -/

/-- The object store: piece records addressed by identity (their index).
Objects are never deallocated, only unlinked from grids. -/
abbrev Store := List Piece

/-- A grid of piece identities (`Board._grid` under the heap model). -/
abbrev HGrid := List (List (Option Nat))

/-- A piece id occurs somewhere on a grid. -/
def MemGrid (i : Nat) (g : HGrid) : Prop :=
  ∃ row ∈ g, some i ∈ row

/-- Writes one cell of an id grid. -/
def hSetCell (g : HGrid) (r c : Nat) (v : Option Nat) : HGrid :=
  match g.get? r with
  | none => g
  | some row => g.set r (row.set c v)

/-- Cell lookup on an id grid. -/
def hPieceAt (g : HGrid) (p : Pos) : Option Nat :=
  match g.get? p.1 with
  | none => none
  | some row =>
    match row.get? p.2 with
    | none => none
    | some cell => cell

/-- `Board.remove` under the heap model: unlink the cell, return the id. -/
def hRemove (g : HGrid) (pos : Pos) : Option Nat × HGrid :=
  (hPieceAt g pos, hSetCell g pos.1 pos.2 none)

/-- `Board.move` under the heap model: remove both cells, mutate the moved
piece object's stored position in the store (`setPosition`), and relink it
at the destination.  An empty from-square raises in the source (modelled as
leaving the cells cleared); a dangling id cannot occur. -/
def hMove (s : Store) (g : HGrid) (fromSq toSq : Pos) : Store × HGrid :=
  let r1 := hRemove g fromSq
  let r2 := hRemove r1.2 toSq
  match r1.1 with
  | none => (s, r2.2)
  | some pid =>
    match s.get? pid with
    | none => (s, r2.2)
    | some p =>
      (s.set pid { p with pos := toSq }, hSetCell r2.2 toSq.1 toSq.2 (some pid))

/-- `Board.set` with a freshly constructed piece (as `promotePawn` places a
new `Queen(...)`): allocates the object and links it at its position. -/
def hPlaceNew (s : Store) (g : HGrid) (pd : Piece) : Store × HGrid :=
  (s ++ [pd], hSetCell g pd.pos.1 pd.pos.2 (some s.length))

/-- A mutation of a board: place a fresh piece, remove a square, or move
from one square to another. -/
inductive BoardOp where
  | place (pd : Piece)
  | remove (pos : Pos)
  | move (fromSq toSq : Pos)
deriving DecidableEq

/-- One mutation applied to a (store, grid) pair. -/
def applyOp (s : Store) (g : HGrid) : BoardOp → Store × HGrid
  | .place pd => hPlaceNew s g pd
  | .remove pos => (s, (hRemove g pos).2)
  | .move f t => hMove s g f t

/-- A sequence of mutations applied left to right. -/
def applyOps (s : Store) (g : HGrid) : List BoardOp → Store × HGrid
  | [] => (s, g)
  | op :: ops =>
    let r := applyOp s g op
    applyOps r.1 r.2 ops

/-- One row of `Board.copyOfBoard`'s `deepcopy(self._grid)`: every piece
object is copied into a fresh store slot. -/
def deepcopyRow (s : Store) : List (Option Nat) → Store × List (Option Nat)
  | [] => (s, [])
  | none :: rest =>
    let r := deepcopyRow s rest
    (r.1, none :: r.2)
  | some pid :: rest =>
    match s.get? pid with
    | none =>
      let r := deepcopyRow s rest
      (r.1, none :: r.2)
    | some p =>
      let r := deepcopyRow (s ++ [p]) rest
      (r.1, some s.length :: r.2)

/-- `Board.copyOfBoard` under the heap model: a deep copy of the grid, each
referenced piece object copied afresh; the original's ids are untouched. -/
def copyOfBoard (s : Store) : HGrid → Store × HGrid
  | [] => (s, [])
  | row :: rest =>
    let r := deepcopyRow s row
    let r2 := copyOfBoard r.1 rest
    (r2.1, r.2 :: r2.2)

/-- The board a store and an id grid denote: each cell resolved to its
piece record. -/
def resolveBoard (s : Store) (g : HGrid) : Board :=
  g.map (fun row => row.map (fun cell => cell.bind (fun i => s.get? i)))

/-- The list of piece ids a grid references. -/
def gridIds (g : HGrid) : List Nat :=
  g.flatten.filterMap id

/-- Membership in `gridIds` is exactly `MemGrid`. -/
theorem memGrid_iff_gridIds (i : Nat) (g : HGrid) : MemGrid i g ↔ i ∈ gridIds g := by
  unfold MemGrid gridIds
  constructor
  · rintro ⟨row, hrow, hmem⟩
    exact List.mem_filterMap.mpr ⟨some i, List.mem_flatten.mpr ⟨row, hrow, hmem⟩, rfl⟩
  · intro h
    obtain ⟨cell, hcell, hc⟩ := List.mem_filterMap.mp h
    obtain ⟨row, hrow, hmem⟩ := List.mem_flatten.mp hcell
    cases cell with
    | none => cases hc
    | some j =>
      cases hc
      exact ⟨row, hrow, hmem⟩

/-- A cell write can only introduce the written id. -/
theorem memGrid_hSetCell (i : Nat) (g : HGrid) (r c : Nat) (v : Option Nat)
    (h : MemGrid i (hSetCell g r c v)) : v = some i ∨ MemGrid i g := by
  unfold hSetCell at h
  split at h
  · exact Or.inr h
  case h_2 row hrow =>
    obtain ⟨row', hrow', hmem⟩ := h
    rcases List.mem_or_eq_of_mem_set hrow' with h' | rfl
    · exact Or.inr ⟨row', h', hmem⟩
    · rcases List.mem_or_eq_of_mem_set hmem with h' | rfl
      · exact Or.inr ⟨row, List.get?_mem hrow, h'⟩
      · exact Or.inl rfl

/-- A successful cell lookup is a grid membership. -/
theorem hPieceAt_memGrid (g : HGrid) (p : Pos) (i : Nat)
    (h : hPieceAt g p = some i) : MemGrid i g := by
  unfold hPieceAt at h
  cases hr : g.get? p.1 with
  | none => rw [hr] at h; cases h
  | some row =>
    rw [hr] at h
    dsimp only at h
    cases hc : row.get? p.2 with
    | none => rw [hc] at h; cases h
    | some cell =>
      rw [hc] at h
      cases cell with
      | none => cases h
      | some j =>
        cases h
        exact ⟨row, List.get?_mem hr, List.get?_mem hc⟩

/-- `deepcopyRow` only appends to the store. -/
theorem deepcopyRow_store_append (s : Store) (row : List (Option Nat)) :
    ∃ t, (deepcopyRow s row).1 = s ++ t := by
  induction row generalizing s with
  | nil => exact ⟨[], by simp [deepcopyRow]⟩
  | cons cell rest ih =>
    cases cell with
    | none =>
      obtain ⟨t, ht⟩ := ih s
      exact ⟨t, by rw [show (deepcopyRow s (none :: rest)).1 = (deepcopyRow s rest).1 from rfl, ht]⟩
    | some pid =>
      cases hs : s.get? pid with
      | none =>
        obtain ⟨t, ht⟩ := ih s
        refine ⟨t, ?_⟩
        have hred : deepcopyRow s (some pid :: rest)
            = ((deepcopyRow s rest).1, none :: (deepcopyRow s rest).2) := by
          show (match s.get? pid with
                | none => ((deepcopyRow s rest).1, none :: (deepcopyRow s rest).2)
                | some p => ((deepcopyRow (s ++ [p]) rest).1,
                    some s.length :: (deepcopyRow (s ++ [p]) rest).2)) = _
          rw [hs]
        rw [hred]
        exact ht
      | some p =>
        obtain ⟨t, ht⟩ := ih (s ++ [p])
        refine ⟨[p] ++ t, ?_⟩
        have hred : deepcopyRow s (some pid :: rest)
            = ((deepcopyRow (s ++ [p]) rest).1,
                some s.length :: (deepcopyRow (s ++ [p]) rest).2) := by
          show (match s.get? pid with
                | none => ((deepcopyRow s rest).1, none :: (deepcopyRow s rest).2)
                | some q => ((deepcopyRow (s ++ [q]) rest).1,
                    some s.length :: (deepcopyRow (s ++ [q]) rest).2)) = _
          rw [hs]
        rw [hred, ht, List.append_assoc]

/-- `copyOfBoard` only appends to the store. -/
theorem copyOfBoard_store_append (s : Store) (g : HGrid) :
    ∃ t, (copyOfBoard s g).1 = s ++ t := by
  induction g generalizing s with
  | nil => exact ⟨[], by simp [copyOfBoard]⟩
  | cons row rest ih =>
    unfold copyOfBoard
    obtain ⟨t1, ht1⟩ := deepcopyRow_store_append s row
    obtain ⟨t2, ht2⟩ := ih (deepcopyRow s row).1
    exact ⟨t1 ++ t2, by rw [ht2, ht1, List.append_assoc]⟩

/-- Ids on a deep-copied row are fresh: at least the entry store length. -/
theorem deepcopyRow_fresh (s : Store) (row : List (Option Nat)) (i : Nat)
    (h : some i ∈ (deepcopyRow s row).2) : s.length ≤ i := by
  induction row generalizing s with
  | nil => cases h
  | cons cell rest ih =>
    cases cell with
    | none =>
      rw [show (deepcopyRow s (none :: rest)).2 = none :: (deepcopyRow s rest).2 from rfl] at h
      rcases List.mem_cons.mp h with h' | h'
      · cases h'
      · exact ih s h'
    | some pid =>
      cases hs : s.get? pid with
      | none =>
        have hred : deepcopyRow s (some pid :: rest)
            = ((deepcopyRow s rest).1, none :: (deepcopyRow s rest).2) := by
          show (match s.get? pid with
                | none => ((deepcopyRow s rest).1, none :: (deepcopyRow s rest).2)
                | some p => ((deepcopyRow (s ++ [p]) rest).1,
                    some s.length :: (deepcopyRow (s ++ [p]) rest).2)) = _
          rw [hs]
        rw [hred] at h
        rcases List.mem_cons.mp h with h' | h'
        · cases h'
        · exact ih s h'
      | some p =>
        have hred : deepcopyRow s (some pid :: rest)
            = ((deepcopyRow (s ++ [p]) rest).1,
                some s.length :: (deepcopyRow (s ++ [p]) rest).2) := by
          show (match s.get? pid with
                | none => ((deepcopyRow s rest).1, none :: (deepcopyRow s rest).2)
                | some q => ((deepcopyRow (s ++ [q]) rest).1,
                    some s.length :: (deepcopyRow (s ++ [q]) rest).2)) = _
          rw [hs]
        rw [hred] at h
        rcases List.mem_cons.mp h with h' | h'
        · cases h'
          exact le_refl _
        · have := ih (s ++ [p]) h'
          simp only [List.length_append, List.length_singleton] at this
          omega

/-- Ids on a deep-copied grid are fresh: at least the entry store length. -/
theorem copyOfBoard_fresh (s : Store) (g : HGrid) (i : Nat)
    (h : MemGrid i (copyOfBoard s g).2) : s.length ≤ i := by
  induction g generalizing s with
  | nil =>
    obtain ⟨row, hrow, _⟩ := h
    cases hrow
  | cons row rest ih =>
    obtain ⟨row', hrow', hmem⟩ := h
    unfold copyOfBoard at hrow'
    rcases List.mem_cons.mp hrow' with rfl | h'
    · exact deepcopyRow_fresh s row i hmem
    · have hle := ih (deepcopyRow s row).1 ⟨row', h', hmem⟩
      obtain ⟨t, ht⟩ := deepcopyRow_store_append s row
      rw [ht] at hle
      simp only [List.length_append] at hle
      omega

/-- The isolation invariant: the store agrees with the original store on
every id the original grid references, those ids are inside the store, and
the (mutated copy) grid references none of them. -/
def Isolated (s0 : Store) (og : HGrid) (s : Store) (g : HGrid) : Prop :=
  (∀ i, MemGrid i og → s.get? i = s0.get? i)
  ∧ (∀ i, MemGrid i og → i < s.length)
  ∧ (∀ i, MemGrid i g → ¬ MemGrid i og)

/-- Evaluation of `hMove` when the from-square is empty. -/
theorem hMove_eq_none (s : Store) (g : HGrid) (f t : Pos) (hp : hPieceAt g f = none) :
    hMove s g f t = (s, hSetCell (hSetCell g f.1 f.2 none) t.1 t.2 none) := by
  unfold hMove hRemove
  rw [hp]

/-- Evaluation of `hMove` when the moved id is not in the store (cannot
occur for well-formed boards). -/
theorem hMove_eq_dangling (s : Store) (g : HGrid) (f t : Pos) (pid : Nat)
    (hp : hPieceAt g f = some pid) (hs : s.get? pid = none) :
    hMove s g f t = (s, hSetCell (hSetCell g f.1 f.2 none) t.1 t.2 none) := by
  unfold hMove hRemove
  rw [hp]
  dsimp only
  rw [hs]

/-- Evaluation of `hMove` on an occupied from-square. -/
theorem hMove_eq_some (s : Store) (g : HGrid) (f t : Pos) (pid : Nat) (p : Piece)
    (hp : hPieceAt g f = some pid) (hs : s.get? pid = some p) :
    hMove s g f t = (s.set pid { p with pos := t },
      hSetCell (hSetCell (hSetCell g f.1 f.2 none) t.1 t.2 none) t.1 t.2 (some pid)) := by
  unfold hMove hRemove
  rw [hp]
  dsimp only
  rw [hs]

/-- Every mutation preserves the isolation invariant. -/
theorem applyOp_isolated (s0 : Store) (og : HGrid) (s : Store) (g : HGrid) (op : BoardOp)
    (h : Isolated s0 og s g) : Isolated s0 og (applyOp s g op).1 (applyOp s g op).2 := by
  obtain ⟨ha, hb, hc⟩ := h
  cases op with
  | place pd =>
    refine ⟨?_, ?_, ?_⟩
    · intro i hi
      have hlt := hb i hi
      show (s ++ [pd]).get? i = s0.get? i
      rw [List.get?_eq_getElem?, List.getElem?_append_left hlt, ← List.get?_eq_getElem?]
      exact ha i hi
    · intro i hi
      have := hb i hi
      show i < (s ++ [pd]).length
      simp only [List.length_append, List.length_singleton]
      omega
    · intro i hi
      rcases memGrid_hSetCell i g pd.pos.1 pd.pos.2 (some s.length) hi with h' | h'
      · cases h'
        intro hmem
        exact absurd (hb _ hmem) (lt_irrefl _)
      · exact hc i h'
  | remove pos =>
    refine ⟨ha, hb, ?_⟩
    intro i hi
    rcases memGrid_hSetCell i g pos.1 pos.2 none hi with h' | h'
    · cases h'
    · exact hc i h'
  | move f t =>
    show Isolated s0 og (hMove s g f t).1 (hMove s g f t).2
    cases hp : hPieceAt g f with
    | none =>
      rw [hMove_eq_none s g f t hp]
      refine ⟨ha, hb, ?_⟩
      intro i hi
      rcases memGrid_hSetCell i _ t.1 t.2 none hi with h' | h'
      · cases h'
      · rcases memGrid_hSetCell i g f.1 f.2 none h' with h'' | h''
        · cases h''
        · exact hc i h''
    | some pid =>
      have hpid : ¬ MemGrid pid og := hc pid (hPieceAt_memGrid g f pid hp)
      cases hs : s.get? pid with
      | none =>
        rw [hMove_eq_dangling s g f t pid hp hs]
        refine ⟨ha, hb, ?_⟩
        intro i hi
        rcases memGrid_hSetCell i _ t.1 t.2 none hi with h' | h'
        · cases h'
        · rcases memGrid_hSetCell i g f.1 f.2 none h' with h'' | h''
          · cases h''
          · exact hc i h''
      | some p =>
        rw [hMove_eq_some s g f t pid p hp hs]
        refine ⟨?_, ?_, ?_⟩
        · intro i hi
          have hne : pid ≠ i := fun he => hpid (he ▸ hi)
          show (s.set pid _).get? i = s0.get? i
          rw [List.get?_eq_getElem?, List.getElem?_set_ne hne, ← List.get?_eq_getElem?]
          exact ha i hi
        · intro i hi
          have := hb i hi
          show i < (s.set pid _).length
          rw [List.length_set]
          exact this
        · intro i hi
          rcases memGrid_hSetCell i _ t.1 t.2 (some pid) hi with h' | h'
          · cases h'
            exact hpid
          · rcases memGrid_hSetCell i _ t.1 t.2 none h' with h'' | h''
            · cases h''
            · rcases memGrid_hSetCell i g f.1 f.2 none h'' with h3 | h3
              · cases h3
              · exact hc i h3

/-- Mutation sequences preserve the isolation invariant. -/
theorem applyOps_isolated (s0 : Store) (og : HGrid) (ops : List BoardOp) :
    ∀ (s : Store) (g : HGrid), Isolated s0 og s g →
      Isolated s0 og (applyOps s g ops).1 (applyOps s g ops).2 := by
  induction ops with
  | nil => exact fun s g h => h
  | cons op ops ih =>
    intro s g h
    exact ih _ _ (applyOp_isolated s0 og s g op h)

/-- The deep copy establishes the isolation invariant. -/
theorem copyOfBoard_isolated (s0 : Store) (og : HGrid)
    (hwf : ∀ i, MemGrid i og → i < s0.length) :
    Isolated s0 og (copyOfBoard s0 og).1 (copyOfBoard s0 og).2 := by
  obtain ⟨t, ht⟩ := copyOfBoard_store_append s0 og
  refine ⟨?_, ?_, ?_⟩
  · intro i hi
    rw [ht, List.get?_eq_getElem?, List.getElem?_append_left (hwf i hi), ← List.get?_eq_getElem?]
  · intro i hi
    rw [ht]
    have := hwf i hi
    simp only [List.length_append]
    omega
  · intro i hi hmem
    exact absurd (hwf i hmem) (not_lt.mpr (copyOfBoard_fresh s0 og i hi))

/-- Agreement on the referenced ids makes the original board resolve
identically. -/
theorem resolveBoard_congr (s0 s : Store) (og : HGrid)
    (h : ∀ i, MemGrid i og → s.get? i = s0.get? i) :
    resolveBoard s og = resolveBoard s0 og := by
  unfold resolveBoard
  apply List.map_congr_left
  intro row hrow
  apply List.map_congr_left
  intro cell hcell
  cases cell with
  | none => rfl
  | some i =>
    show s.get? i = s0.get? i
    exact h i ⟨row, hrow, hcell⟩

/-- C8: deep-copying a board and then performing any sequence of mutations
(place, remove, move) on the copy leaves every piece record the original
board references unchanged in the store, and hence the original board's
resolved placement (pieces and their stored positions) unchanged. -/
theorem copyOfBoard_isolation (s0 : Store) (og : HGrid) (ops : List BoardOp)
    (hwf : ∀ i ∈ gridIds og, i < s0.length) :
    (∀ i ∈ gridIds og,
      (applyOps (copyOfBoard s0 og).1 (copyOfBoard s0 og).2 ops).1.get? i = s0.get? i)
    ∧ resolveBoard (applyOps (copyOfBoard s0 og).1 (copyOfBoard s0 og).2 ops).1 og
      = resolveBoard s0 og := by
  have hwf' : ∀ i, MemGrid i og → i < s0.length :=
    fun i hi => hwf i ((memGrid_iff_gridIds i og).mp hi)
  have hiso := applyOps_isolated s0 og ops _ _ (copyOfBoard_isolated s0 og hwf')
  refine ⟨?_, resolveBoard_congr s0 _ og hiso.1⟩
  intro i hi
  exact hiso.1 i ((memGrid_iff_gridIds i og).mpr hi)

/-- Concrete store for the C8 witness: a white rook and a black pawn. -/
def witnessStore : Store := [⟨.rook, false, (0, 0)⟩, ⟨.pawn, true, (1, 1)⟩]

/-- Concrete 2x2 original grid referencing both pieces. -/
def witnessGrid : HGrid := [[some 0, none], [none, some 1]]

/-- Concrete mutation sequence: a capture move, a fresh placement and a
removal on the copy. -/
def witnessOps : List BoardOp :=
  [BoardOp.move (0, 0) (1, 1), BoardOp.place ⟨.queen, false, (0, 1)⟩, BoardOp.remove (1, 1)]

/-- C8 witness: the isolation theorem evaluated at the concrete store, grid
and mutation sequence. -/
theorem copyOfBoard_isolation_witness :
    resolveBoard
      (applyOps (copyOfBoard witnessStore witnessGrid).1
        (copyOfBoard witnessStore witnessGrid).2 witnessOps).1 witnessGrid
      = resolveBoard witnessStore witnessGrid :=
  (copyOfBoard_isolation witnessStore witnessGrid witnessOps (by decide)).2

/-! ## Claim C2: alpha-beta versus unpruned minimax search

`ComputerTreeSearchPlayer._bestScore` (unpruned minimax) and
`ComputerTreeSearchAlphaBetaPlayer._bestScore` (alpha-beta) are embedded
with the remaining depth (`self._depth - depth`) as fuel, and each result
carries the score, the chosen move and the number of leaf positions
evaluated (`self.leafCount` increments at `depth == self._depth`). -/

/-- Result of one `_bestScore` call: score, chosen move (None at a leaf or
when no move improved on the sentinel), and leaves evaluated. -/
structure SearchResult where
  score : Int
  move : Option ChessMove
  leaves : Nat
deriving DecidableEq

/-- Strict improvement test of the search loops: `newScore < score` for
black (minimising), `newScore > score` for white (maximising). -/
def improves (isBlack : Bool) (newScore oldScore : Int) : Bool :=
  if isBlack then decide (newScore < oldScore) else decide (newScore > oldScore)

/-- The move loop of the unpruned `_bestScore`: runs `ev` (the recursive
search, returning score and leaf count) on every move, keeping the first
strict improvement. -/
def mmGo (ev : ChessMove → Int × Nat) (isBlack : Bool) :
    List ChessMove → Int → Option ChessMove → Nat → SearchResult
  | [], s, mv, n => ⟨s, mv, n⟩
  | m :: ms, s, mv, n =>
    let r := ev m
    if improves isBlack r.1 s then
      mmGo ev isBlack ms r.1 (some m) (n + r.2)
    else
      mmGo ev isBlack ms s mv (n + r.2)

/-- `ComputerTreeSearchPlayer._bestScore`: at fuel 0 (depth == _depth) the
static board score is a leaf; otherwise the moves argument is used when
non-empty (Python truthiness of `moves`), else the filtered possible moves,
and the loop starts from the sentinel (+-99999, None). -/
def bestScoreTree : Nat → Board → Bool → List ChessMove → SearchResult
  | 0, b, _, _ => ⟨piecesScore b, none, 1⟩
  | f + 1, b, isBlack, movesArg =>
    let avail := if movesArg.isEmpty
      then (possibleMoves b isBlack).filter (fun m => !m.disallowed)
      else movesArg
    mmGo (fun m =>
        let r := bestScoreTree f (simulateMove b m) (!isBlack) []
        (r.score, r.leaves))
      isBlack avail (if isBlack then 99999 else -99999) none 0

/-- The move loop of the alpha-beta `_bestScore`: each move is searched
with the current window, the best score/move updated as in the unpruned
loop, then the window is tightened (`beta = min(beta, newScore)` on a black
node, `alpha = max(alpha, newScore)` on a white node) and the remaining
moves abandoned once `beta <= alpha`. -/
def abGo (ev : Int → Int → ChessMove → Int × Nat) (isBlack : Bool) :
    List ChessMove → Int → Int → Int → Option ChessMove → Nat → SearchResult
  | [], _, _, s, mv, n => ⟨s, mv, n⟩
  | m :: ms, alpha, beta, s, mv, n =>
    let r := ev alpha beta m
    if isBlack then
      let s' := if improves true r.1 s then r.1 else s
      let mv' := if improves true r.1 s then some m else mv
      let beta' := min beta r.1
      if beta' ≤ alpha then ⟨s', mv', n + r.2⟩
      else abGo ev isBlack ms alpha beta' s' mv' (n + r.2)
    else
      let s' := if improves false r.1 s then r.1 else s
      let mv' := if improves false r.1 s then some m else mv
      let alpha' := max alpha r.1
      if beta ≤ alpha' then ⟨s', mv', n + r.2⟩
      else abGo ev isBlack ms alpha' beta s' mv' (n + r.2)

/-- `ComputerTreeSearchAlphaBetaPlayer._bestScore`. -/
def bestScoreAlphaBeta : Nat → Int → Int → Board → Bool → List ChessMove → SearchResult
  | 0, _, _, b, _, _ => ⟨piecesScore b, none, 1⟩
  | f + 1, alpha, beta, b, isBlack, movesArg =>
    let avail := if movesArg.isEmpty
      then (possibleMoves b isBlack).filter (fun m => !m.disallowed)
      else movesArg
    abGo (fun a bb m =>
        let r := bestScoreAlphaBeta f a bb (simulateMove b m) (!isBlack) []
        (r.score, r.leaves))
      isBlack avail alpha beta (if isBlack then 99999 else -99999) none 0

/-- `ComputerTreeSearchPlayer.choseMove`: a single legal move is returned
directly (leaf count stays 0), otherwise `_bestScore` is called with the
FULL move list (the disallowed moves included).  The Python set of
available moves is modelled as the filtered list in source order (set
iteration order is unspecified in the source). -/
def choseMoveTree (depth : Nat) (b : Board) (isBlack : Bool) (moves : List ChessMove) :
    Option ChessMove × Nat :=
  let availableMoves := moves.filter (fun m => !m.disallowed)
  if availableMoves.length = 1 then (availableMoves.head?, 0)
  else ((bestScoreTree depth b isBlack moves).move, (bestScoreTree depth b isBlack moves).leaves)

/-- `ComputerTreeSearchAlphaBetaPlayer.choseMove`: like the unpruned
player, but `_bestScore` receives the initial window (-9999, 9999) and only
the non-disallowed moves. -/
def choseMoveAlphaBeta (depth : Nat) (b : Board) (isBlack : Bool)
    (moves : List ChessMove) : Option ChessMove × Nat :=
  let availableMoves := moves.filter (fun m => !m.disallowed)
  if availableMoves.length = 1 then (availableMoves.head?, 0)
  else ((bestScoreAlphaBeta depth (-9999) 9999 b isBlack availableMoves).move,
        (bestScoreAlphaBeta depth (-9999) 9999 b isBlack availableMoves).leaves)

/-- The fail-soft window relation between the true (unpruned) value `v` of
a node and the value `r` an alpha-beta search of that node with window
`(a, bb)` returns: exact strictly inside the window, bracketed between the
true value and the crossed window edge outside it. -/
def FSRel (a bb v r : Int) : Prop :=
  (v ≤ a → v ≤ r ∧ r ≤ a) ∧ (a < v → v < bb → r = v) ∧ (bb ≤ v → bb ≤ r ∧ r ≤ v)

/-- An exact value satisfies the window relation. -/
theorem fsRel_refl (a bb v : Int) : FSRel a bb v v :=
  ⟨fun h => ⟨le_refl v, h⟩, fun _ _ => rfl, fun h => ⟨h, le_refl v⟩⟩

/-- Unfolding of the white improvement test. -/
theorem improves_false (x y : Int) : improves false x y = decide (x > y) := rfl

/-- Unfolding of the black improvement test. -/
theorem improves_true (x y : Int) : improves true x y = decide (x < y) := rfl

/-- The white (maximising) loop's score never drops below its accumulator. -/
theorem mmGo_score_ge (ev : ChessMove → Int × Nat) (ms : List ChessMove) :
    ∀ s mv n, s ≤ (mmGo ev false ms s mv n).score := by
  induction ms with
  | nil => intro s mv n; exact le_refl s
  | cons m ms ih =>
    intro s mv n
    show s ≤ (if improves false (ev m).1 s then
        mmGo ev false ms (ev m).1 (some m) (n + (ev m).2)
      else mmGo ev false ms s mv (n + (ev m).2)).score
    by_cases h : (ev m).1 > s
    · rw [if_pos (by simp [improves_false, h])]
      exact le_trans (le_of_lt h) (ih _ _ _)
    · rw [if_neg (by simp [improves_false, h])]
      exact ih _ _ _

/-- The black (minimising) loop's score never exceeds its accumulator. -/
theorem mmGo_score_le (ev : ChessMove → Int × Nat) (ms : List ChessMove) :
    ∀ s mv n, (mmGo ev true ms s mv n).score ≤ s := by
  induction ms with
  | nil => intro s mv n; exact le_refl s
  | cons m ms ih =>
    intro s mv n
    show (if improves true (ev m).1 s then
        mmGo ev true ms (ev m).1 (some m) (n + (ev m).2)
      else mmGo ev true ms s mv (n + (ev m).2)).score ≤ s
    by_cases h : (ev m).1 < s
    · rw [if_pos (by simp [improves_true, h])]
      exact le_trans (ih _ _ _) (le_of_lt h)
    · rw [if_neg (by simp [improves_true, h])]
      exact ih _ _ _

/-- When no remaining value strictly improves, the white loop keeps its
accumulated score and move. -/
theorem mmGo_frozen_white (ev : ChessMove → Int × Nat) (ms : List ChessMove) :
    ∀ s mv n, (∀ m ∈ ms, (ev m).1 ≤ s) →
      (mmGo ev false ms s mv n).score = s ∧ (mmGo ev false ms s mv n).move = mv := by
  induction ms with
  | nil => intro s mv n _; exact ⟨rfl, rfl⟩
  | cons m ms ih =>
    intro s mv n h
    have hred : mmGo ev false (m :: ms) s mv n = mmGo ev false ms s mv (n + (ev m).2) := by
      show (if improves false (ev m).1 s then
          mmGo ev false ms (ev m).1 (some m) (n + (ev m).2)
        else mmGo ev false ms s mv (n + (ev m).2)) = _
      rw [if_neg (by simp [improves_false]; exact h m (List.mem_cons_self m ms))]
    rw [hred]
    exact ih s mv _ (fun m' hm' => h m' (List.mem_cons_of_mem m hm'))

/-- When no remaining value strictly improves, the black loop keeps its
accumulated score and move. -/
theorem mmGo_frozen_black (ev : ChessMove → Int × Nat) (ms : List ChessMove) :
    ∀ s mv n, (∀ m ∈ ms, s ≤ (ev m).1) →
      (mmGo ev true ms s mv n).score = s ∧ (mmGo ev true ms s mv n).move = mv := by
  induction ms with
  | nil => intro s mv n _; exact ⟨rfl, rfl⟩
  | cons m ms ih =>
    intro s mv n h
    have hred : mmGo ev true (m :: ms) s mv n = mmGo ev true ms s mv (n + (ev m).2) := by
      show (if improves true (ev m).1 s then
          mmGo ev true ms (ev m).1 (some m) (n + (ev m).2)
        else mmGo ev true ms s mv (n + (ev m).2)) = _
      rw [if_neg (by simp [improves_true]; exact h m (List.mem_cons_self m ms))]
    rw [hred]
    exact ih s mv _ (fun m' hm' => h m' (List.mem_cons_of_mem m hm'))

/-- Scores produced by the white loop are the accumulator or one of the
evaluated values. -/
theorem mmGo_score_cases (P : Int → Prop) (ev : ChessMove → Int × Nat) (c : Bool)
    (ms : List ChessMove) :
    ∀ s mv n, P s → (∀ m ∈ ms, P (ev m).1) → P (mmGo ev c ms s mv n).score := by
  induction ms with
  | nil => intro s mv n hs _; exact hs
  | cons m ms ih =>
    intro s mv n hs h
    show P (if improves c (ev m).1 s then
        mmGo ev c ms (ev m).1 (some m) (n + (ev m).2)
      else mmGo ev c ms s mv (n + (ev m).2)).score
    by_cases hc : improves c (ev m).1 s = true
    · rw [if_pos hc]
      exact ih _ _ _ (h m (List.mem_cons_self m ms)) (fun m' hm' => h m' (List.mem_cons_of_mem m hm'))
    · rw [if_neg hc]
      exact ih _ _ _ hs (fun m' hm' => h m' (List.mem_cons_of_mem m hm'))

/-- Scores produced by the alpha-beta loop are the accumulator or one of
the evaluated values (for whatever windows were used). -/
theorem abGo_score_cases (P : Int → Prop) (ev : Int → Int → ChessMove → Int × Nat) (c : Bool)
    (ms : List ChessMove) :
    ∀ a bb s mv n, P s → (∀ m ∈ ms, ∀ a' bb', P (ev a' bb' m).1) →
      P (abGo ev c ms a bb s mv n).score := by
  induction ms with
  | nil => intro a bb s mv n hs _; exact hs
  | cons m ms ih =>
    intro a bb s mv n hs h
    have hm := h m (List.mem_cons_self m ms) a bb
    have hrest : ∀ m' ∈ ms, ∀ a' bb', P (ev a' bb' m').1 :=
      fun m' hm' => h m' (List.mem_cons_of_mem m hm')
    cases c with
    | true =>
      show P (if min bb (ev a bb m).1 ≤ a then
          (⟨if improves true (ev a bb m).1 s then (ev a bb m).1 else s,
            if improves true (ev a bb m).1 s then some m else mv,
            n + (ev a bb m).2⟩ : SearchResult)
        else abGo ev true ms a (min bb (ev a bb m).1)
          (if improves true (ev a bb m).1 s then (ev a bb m).1 else s)
          (if improves true (ev a bb m).1 s then some m else mv) (n + (ev a bb m).2)).score
      by_cases hcut : min bb (ev a bb m).1 ≤ a
      · rw [if_pos hcut]
        by_cases himp : improves true (ev a bb m).1 s = true
        · simpa [himp] using hm
        · simpa [himp] using hs
      · rw [if_neg hcut]
        by_cases himp : improves true (ev a bb m).1 s = true
        · rw [if_pos himp, if_pos himp]
          exact ih _ _ _ _ _ hm hrest
        · rw [if_neg himp, if_neg himp]
          exact ih _ _ _ _ _ hs hrest
    | false =>
      show P (if bb ≤ max a (ev a bb m).1 then
          (⟨if improves false (ev a bb m).1 s then (ev a bb m).1 else s,
            if improves false (ev a bb m).1 s then some m else mv,
            n + (ev a bb m).2⟩ : SearchResult)
        else abGo ev false ms (max a (ev a bb m).1) bb
          (if improves false (ev a bb m).1 s then (ev a bb m).1 else s)
          (if improves false (ev a bb m).1 s then some m else mv) (n + (ev a bb m).2)).score
      by_cases hcut : bb ≤ max a (ev a bb m).1
      · rw [if_pos hcut]
        by_cases himp : improves false (ev a bb m).1 s = true
        · simpa [himp] using hm
        · simpa [himp] using hs
      · rw [if_neg hcut]
        by_cases himp : improves false (ev a bb m).1 s = true
        · rw [if_pos himp, if_pos himp]
          exact ih _ _ _ _ _ hm hrest
        · rw [if_neg himp, if_neg himp]
          exact ih _ _ _ _ _ hs hrest

/-- Unfolding of the white alpha-beta loop on a cons cell. -/
theorem abGo_cons_white (ev : Int → Int → ChessMove → Int × Nat) (m : ChessMove)
    (ms : List ChessMove) (a bb s : Int) (mv : Option ChessMove) (n : Nat) :
    abGo ev false (m :: ms) a bb s mv n =
      if bb ≤ max a (ev a bb m).1 then
        ⟨if improves false (ev a bb m).1 s then (ev a bb m).1 else s,
         if improves false (ev a bb m).1 s then some m else mv, n + (ev a bb m).2⟩
      else abGo ev false ms (max a (ev a bb m).1) bb
        (if improves false (ev a bb m).1 s then (ev a bb m).1 else s)
        (if improves false (ev a bb m).1 s then some m else mv) (n + (ev a bb m).2) := rfl

/-- Unfolding of the black alpha-beta loop on a cons cell. -/
theorem abGo_cons_black (ev : Int → Int → ChessMove → Int × Nat) (m : ChessMove)
    (ms : List ChessMove) (a bb s : Int) (mv : Option ChessMove) (n : Nat) :
    abGo ev true (m :: ms) a bb s mv n =
      if min bb (ev a bb m).1 ≤ a then
        ⟨if improves true (ev a bb m).1 s then (ev a bb m).1 else s,
         if improves true (ev a bb m).1 s then some m else mv, n + (ev a bb m).2⟩
      else abGo ev true ms a (min bb (ev a bb m).1)
        (if improves true (ev a bb m).1 s then (ev a bb m).1 else s)
        (if improves true (ev a bb m).1 s then some m else mv) (n + (ev a bb m).2) := rfl

/-- Unfolding of the unpruned loop on a cons cell. -/
theorem mmGo_cons (ev : ChessMove → Int × Nat) (c : Bool) (m : ChessMove)
    (ms : List ChessMove) (s : Int) (mv : Option ChessMove) (n : Nat) :
    mmGo ev c (m :: ms) s mv n =
      if improves c (ev m).1 s then mmGo ev c ms (ev m).1 (some m) (n + (ev m).2)
      else mmGo ev c ms s mv (n + (ev m).2) := rfl

/-- The unpruned loop's score ignores the move and leaf accumulators. -/
theorem mmGo_score_irrel (ev : ChessMove → Int × Nat) (c : Bool) (ms : List ChessMove) :
    ∀ s mv mv' n n', (mmGo ev c ms s mv n).score = (mmGo ev c ms s mv' n').score := by
  induction ms with
  | nil => intro s mv mv' n n'; rfl
  | cons m ms ih =>
    intro s mv mv' n n'
    rw [mmGo_cons, mmGo_cons]
    by_cases himp : improves c (ev m).1 s = true
    · rw [if_pos himp, if_pos himp]
      exact ih _ _ _ _ _
    · rw [if_neg himp, if_neg himp]
      exact ih _ _ _ _ _

/-- The alpha-beta loop's score ignores the move and leaf accumulators. -/
theorem abGo_score_irrel (ev : Int → Int → ChessMove → Int × Nat) (c : Bool)
    (ms : List ChessMove) :
    ∀ a bb s mv mv' n n',
      (abGo ev c ms a bb s mv n).score = (abGo ev c ms a bb s mv' n').score := by
  induction ms with
  | nil => intro a bb s mv mv' n n'; rfl
  | cons m ms ih =>
    intro a bb s mv mv' n n'
    cases c with
    | true =>
      rw [abGo_cons_black, abGo_cons_black]
      by_cases hcut : min bb (ev a bb m).1 ≤ a
      · rw [if_pos hcut, if_pos hcut]
      · rw [if_neg hcut, if_neg hcut]
        by_cases himp : improves true (ev a bb m).1 s = true
        · rw [if_pos himp]
          exact ih _ _ _ _ _ _ _
        · rw [if_neg himp]
          exact ih _ _ _ _ _ _ _
    | false =>
      rw [abGo_cons_white, abGo_cons_white]
      by_cases hcut : bb ≤ max a (ev a bb m).1
      · rw [if_pos hcut, if_pos hcut]
      · rw [if_neg hcut, if_neg hcut]
        by_cases himp : improves false (ev a bb m).1 s = true
        · rw [if_pos himp]
          exact ih _ _ _ _ _ _ _
        · rw [if_neg himp]
          exact ih _ _ _ _ _ _ _

/-- The strict-improvement update equals the running maximum. -/
theorem improve_update_white (x s : Int) :
    (if improves false x s then x else s) = max s x := by
  by_cases h : x > s
  · rw [if_pos (by simp [improves_false, h]), max_eq_right (le_of_lt h)]
  · rw [if_neg (by simp [improves_false, h]), max_eq_left (not_lt.mp h)]

/-- The strict-improvement update equals the running minimum. -/
theorem improve_update_black (x s : Int) :
    (if improves true x s then x else s) = min s x := by
  by_cases h : x < s
  · rw [if_pos (by simp [improves_true, h]), min_eq_right (le_of_lt h)]
  · rw [if_neg (by simp [improves_true, h]), min_eq_left (not_lt.mp h)]

/-- Fail-soft correctness of the white (maximising) loop: when every child
search result relates to its unpruned value by `FSRel` at whatever window
it is given, the loop's alpha-beta score relates to its unpruned score by
`FSRel` relative to the loop's original alpha. -/
theorem abGo_fsRel_white (evA : Int → Int → ChessMove → Int × Nat)
    (evM : ChessMove → Int × Nat) (bb : Int) :
    ∀ (ms : List ChessMove) (a0 sA sM : Int) (mvA mvM : Option ChessMove) (nA nM : Nat),
      -99999 ≤ a0 →
      (∀ m ∈ ms, ∀ a, -99999 ≤ a → a < bb → FSRel a bb (evM m).1 (evA a bb m).1) →
      FSRel a0 bb sM sA →
      max a0 sA < bb →
      FSRel a0 bb (mmGo evM false ms sM mvM nM).score
        (abGo evA false ms (max a0 sA) bb sA mvA nA).score := by
  intro ms
  induction ms with
  | nil => intro a0 sA sM mvA mvM nA nM _ _ hrel _; exact hrel
  | cons m ms ih =>
    intro a0 sA sM mvA mvM nA nM hA hev hrel hlt
    obtain ⟨hrlow, hrmid, hrhigh⟩ := hrel
    set v := (evM m).1 with hv
    set r := (evA (max a0 sA) bb m).1 with hr
    have ha0bb : a0 < bb := lt_of_le_of_lt (le_max_left a0 sA) hlt
    have hsAbb : sA < bb := lt_of_le_of_lt (le_max_right a0 sA) hlt
    have hwin : -99999 ≤ max a0 sA := le_trans hA (le_max_left _ _)
    obtain ⟨hflow, hfmid, hfhigh⟩ := hev m (List.mem_cons_self m ms) (max a0 sA) hwin hlt
    rw [← hv] at hflow hfmid hfhigh
    rw [← hr] at hflow hfmid hfhigh
    have hevrest : ∀ m' ∈ ms, ∀ a, -99999 ≤ a → a < bb →
        FSRel a bb (evM m').1 (evA a bb m').1 :=
      fun m' hm' => hev m' (List.mem_cons_of_mem m hm')
    have hmm : (mmGo evM false (m :: ms) sM mvM nM).score
        = (mmGo evM false ms (max sM v) mvM nM).score := by
      rw [mmGo_cons]
      by_cases himp : improves false v sM = true
      · rw [if_pos himp]
        rw [show max sM v = v from max_eq_right (le_of_lt (by
          simpa [improves_false] using himp))]
        exact mmGo_score_irrel evM false ms v (some m) mvM _ _
      · rw [if_neg himp]
        rw [show max sM v = sM from max_eq_left (not_lt.mp (by
          simpa [improves_false] using himp))]
        exact mmGo_score_irrel evM false ms sM mvM mvM _ _
    by_cases hcut : bb ≤ max (max a0 sA) r
    · have hrbb : bb ≤ r := by
        rcases le_or_lt bb r with h | h
        · exact h
        · exfalso
          rcases max_cases (max a0 sA) r with ⟨he, _⟩ | ⟨he, _⟩ <;> omega
      have hvbb : bb ≤ v := by
        rcases le_or_lt bb v with h | h
        · exact h
        · rcases le_or_lt v (max a0 sA) with h2 | h2
          · obtain ⟨_, h3⟩ := hflow h2
            omega
          · have := hfmid h2 h
            omega
      have hrv : r ≤ v := (hfhigh hvbb).2
      have habs : (abGo evA false (m :: ms) (max a0 sA) bb sA mvA nA).score
          = max sA r := by
        rw [abGo_cons_white, if_pos hcut]
        exact improve_update_white r sA
      have hvout : v ≤ (mmGo evM false (m :: ms) sM mvM nM).score := by
        rw [hmm]
        exact le_trans (le_max_right sM v) (mmGo_score_ge evM ms _ _ _)
      rw [habs]
      have hmaxle : max sA r ≤ v := max_le (by omega) hrv
      refine ⟨fun h => absurd h (by omega), fun h1 h2 => absurd h2 (by omega),
        fun _ => ⟨le_trans hrbb (le_max_right sA r), le_trans hmaxle hvout⟩⟩
    · have hrlt : r < bb := by
        rcases le_or_lt bb r with h | h
        · exact absurd (le_trans h (le_max_right _ _)) hcut
        · exact h
      have hvlt : v < bb := by
        rcases le_or_lt bb v with h | h
        · obtain ⟨h1, _⟩ := hfhigh h
          omega
        · exact h
      have hab : (abGo evA false (m :: ms) (max a0 sA) bb sA mvA nA).score
          = (abGo evA false ms (max a0 (max sA r)) bb (max sA r) mvA nA).score := by
        rw [abGo_cons_white, if_neg hcut, improve_update_white r sA, max_assoc]
        exact abGo_score_irrel evA false ms _ bb (max sA r) _ mvA _ _
      have hrel' : FSRel a0 bb (max sM v) (max sA r) := by
        refine ⟨?_, ?_, ?_⟩
        · intro h
          have hsm : sM ≤ a0 := le_trans (le_max_left sM v) h
          have hvv : v ≤ a0 := le_trans (le_max_right sM v) h
          obtain ⟨h1, h2⟩ := hrlow hsm
          have hmax : max a0 sA = a0 := max_eq_left h2
          obtain ⟨h3, h4⟩ := hflow (by rw [hmax]; exact hvv)
          rw [hmax] at h4
          exact ⟨max_le_max h1 h3, max_le h2 h4⟩
        · intro h1 h2
          rcases le_or_lt v sM with hvm | hvm
          · rw [max_eq_left hvm] at h1 h2 ⊢
            have heq : sA = sM := hrmid h1 h2
            have hmax : max a0 sA = sM := by
              rw [heq]
              exact max_eq_right (le_of_lt h1)
            obtain ⟨_, h4⟩ := hflow (by rw [hmax]; exact hvm)
            rw [hmax] at h4
            rw [heq]
            exact max_eq_left h4
          · rw [max_eq_right (le_of_lt hvm)] at h1 h2 ⊢
            rcases le_or_lt sM a0 with hsm | hsm
            · obtain ⟨hx1, hx2⟩ := hrlow hsm
              have hmax : max a0 sA = a0 := max_eq_left hx2
              rw [hfmid (by rw [hmax]; exact h1) h2]
              exact max_eq_right (by omega)
            · have heq : sA = sM := hrmid hsm (lt_trans hvm h2)
              have hmax : max a0 sA = sM := by
                rw [heq]
                exact max_eq_right (le_of_lt hsm)
              rw [hfmid (by rw [hmax]; exact hvm) h2]
              rw [heq]
              exact max_eq_right (le_of_lt hvm)
        · intro h
          exfalso
          have hsm : bb ≤ sM := by
            rcases max_cases sM v with ⟨he, _⟩ | ⟨he, _⟩ <;> omega
          obtain ⟨hx, _⟩ := hrhigh hsm
          omega
      have hlt' : max a0 (max sA r) < bb := by
        rw [← max_assoc]
        rcases le_or_lt (max (max a0 sA) r) bb with h | h
        · rcases lt_or_eq_of_le h with h2 | h2
          · exact h2
          · exact absurd (le_of_eq h2.symm) hcut
        · exact absurd (le_of_lt h) hcut
      rw [hmm, hab]
      have := ih a0 (max sA r) (max sM v) mvA mvM nA nM hA hevrest hrel' hlt'
      rwa [show max a0 (max sA r) = max a0 (max sA r) from rfl] at this

/-- Fail-soft correctness of the black (minimising) loop, mirroring
`abGo_fsRel_white`: the relation is kept relative to the loop's fixed alpha
while beta tightens. -/
theorem abGo_fsRel_black (evA : Int → Int → ChessMove → Int × Nat)
    (evM : ChessMove → Int × Nat) (a0 : Int) :
    ∀ (ms : List ChessMove) (bb0 sA sM : Int) (mvA mvM : Option ChessMove) (nA nM : Nat),
      bb0 ≤ 99999 →
      (∀ m ∈ ms, ∀ bb, a0 < bb → bb ≤ 99999 → FSRel a0 bb (evM m).1 (evA a0 bb m).1) →
      FSRel a0 bb0 sM sA →
      a0 < min bb0 sA →
      FSRel a0 bb0 (mmGo evM true ms sM mvM nM).score
        (abGo evA true ms a0 (min bb0 sA) sA mvA nA).score := by
  intro ms
  induction ms with
  | nil => intro bb0 sA sM mvA mvM nA nM _ _ hrel _; exact hrel
  | cons m ms ih =>
    intro bb0 sA sM mvA mvM nA nM hB hev hrel hlt
    obtain ⟨hrlow, hrmid, hrhigh⟩ := hrel
    set v := (evM m).1 with hv
    set r := (evA a0 (min bb0 sA) m).1 with hr
    have ha0bb : a0 < bb0 := lt_of_lt_of_le hlt (min_le_left _ _)
    have hsAgt : a0 < sA := lt_of_lt_of_le hlt (min_le_right _ _)
    have hwinB : min bb0 sA ≤ 99999 := le_trans (min_le_left _ _) hB
    obtain ⟨hflow, hfmid, hfhigh⟩ := hev m (List.mem_cons_self m ms) (min bb0 sA) hlt hwinB
    rw [← hv] at hflow hfmid hfhigh
    rw [← hr] at hflow hfmid hfhigh
    have hsM : a0 < sM := by
      by_contra hcon
      obtain ⟨_, h2⟩ := hrlow (not_lt.mp hcon)
      omega
    have hevrest : ∀ m' ∈ ms, ∀ bb, a0 < bb → bb ≤ 99999 →
        FSRel a0 bb (evM m').1 (evA a0 bb m').1 :=
      fun m' hm' => hev m' (List.mem_cons_of_mem m hm')
    have hmm : (mmGo evM true (m :: ms) sM mvM nM).score
        = (mmGo evM true ms (min sM v) mvM nM).score := by
      rw [mmGo_cons]
      by_cases himp : improves true v sM = true
      · rw [if_pos himp]
        rw [show min sM v = v from min_eq_right (le_of_lt (by
          simpa [improves_true] using himp))]
        exact mmGo_score_irrel evM true ms v (some m) mvM _ _
      · rw [if_neg himp]
        rw [show min sM v = sM from min_eq_left (not_lt.mp (by
          simpa [improves_true] using himp))]
        exact mmGo_score_irrel evM true ms sM mvM mvM _ _
    by_cases hcut : min (min bb0 sA) r ≤ a0
    · have hra : r ≤ a0 := by
        rcases le_or_lt r a0 with h | h
        · exact h
        · exfalso
          rcases min_cases (min bb0 sA) r with ⟨he, _⟩ | ⟨he, _⟩ <;> omega
      have hva : v ≤ a0 := by
        rcases le_or_lt v a0 with h | h
        · exact h
        · rcases lt_or_le v (min bb0 sA) with h2 | h2
          · have := hfmid h h2
            omega
          · obtain ⟨h3, _⟩ := hfhigh h2
            omega
      have hvr : v ≤ r := (hflow hva).1
      have habs : (abGo evA true (m :: ms) a0 (min bb0 sA) sA mvA nA).score
          = min sA r := by
        rw [abGo_cons_black, if_pos hcut]
        exact improve_update_black r sA
      have hvout : (mmGo evM true (m :: ms) sM mvM nM).score ≤ v := by
        rw [hmm]
        exact le_trans (mmGo_score_le evM ms _ _ _) (min_le_right sM v)
      rw [habs]
      have hvsa : (mmGo evM true (m :: ms) sM mvM nM).score ≤ sA := by
        rcases le_or_lt bb0 sM with hsm | hsm
        · obtain ⟨hx, _⟩ := hrhigh hsm
          omega
        · have heq : sA = sM := hrmid hsM hsm
          have := le_trans hvout (le_trans hva (le_of_lt hsM))
          omega
      refine ⟨fun _ => ⟨le_min hvsa (le_trans hvout hvr), le_trans (min_le_right sA r) hra⟩,
        fun h1 _ => absurd h1 (by omega), fun h => absurd h (by omega)⟩
    · have hrgt : a0 < r := by
        rcases le_or_lt r a0 with h | h
        · exact absurd (le_trans (min_le_right _ _) h) hcut
        · exact h
      have hvgt : a0 < v := by
        rcases le_or_lt v a0 with h | h
        · obtain ⟨_, h2⟩ := hflow h
          omega
        · exact h
      have hab : (abGo evA true (m :: ms) a0 (min bb0 sA) sA mvA nA).score
          = (abGo evA true ms a0 (min bb0 (min sA r)) (min sA r) mvA nA).score := by
        rw [abGo_cons_black, if_neg hcut, improve_update_black r sA, min_assoc]
        exact abGo_score_irrel evA true ms a0 _ (min sA r) _ mvA _ _
      have hrel' : FSRel a0 bb0 (min sM v) (min sA r) := by
        refine ⟨?_, ?_, ?_⟩
        · intro h
          exfalso
          rcases min_cases sM v with ⟨he, _⟩ | ⟨he, _⟩ <;> omega
        · intro h1 h2
          rcases le_or_lt sM v with hvm | hvm
          · rw [min_eq_left hvm] at h2 ⊢
            have heq : sA = sM := hrmid hsM h2
            have hmin : min bb0 sA = sM := by
              rw [heq]
              exact min_eq_right (le_of_lt h2)
            obtain ⟨h3, _⟩ := hfhigh (by rw [hmin]; exact hvm)
            rw [hmin] at h3
            rw [heq]
            exact min_eq_left h3
          · rw [min_eq_right (le_of_lt hvm)] at h2 ⊢
            rcases le_or_lt bb0 sM with hsm | hsm
            · obtain ⟨hx1, hx2⟩ := hrhigh hsm
              have hmin : min bb0 sA = bb0 := min_eq_left hx1
              rw [hfmid hvgt (by rw [hmin]; exact h2)]
              exact min_eq_right (by omega)
            · have heq : sA = sM := hrmid hsM hsm
              have hmin : min bb0 sA = sM := by
                rw [heq]
                exact min_eq_right (le_of_lt hsm)
              rw [hfmid hvgt (by rw [hmin]; exact hvm)]
              rw [heq]
              exact min_eq_right (le_of_lt hvm)
        · intro h
          have hbsm : bb0 ≤ sM := le_trans h (min_le_left sM v)
          have hbv : bb0 ≤ v := le_trans h (min_le_right sM v)
          obtain ⟨hx1, hx2⟩ := hrhigh hbsm
          have hmin : min bb0 sA = bb0 := min_eq_left hx1
          obtain ⟨h3, h4⟩ := hfhigh (by rw [hmin]; exact hbv)
          rw [hmin] at h3
          exact ⟨le_min hx1 h3, min_le_min hx2 h4⟩
      have hlt' : a0 < min bb0 (min sA r) := by
        rw [← min_assoc]
        rcases le_or_lt (min (min bb0 sA) r) a0 with h | h
        · exact absurd h hcut
        · exact h
      rw [hmm, hab]
      exact ih bb0 (min sA r) (min sM v) mvA mvM nA nM hB hevrest hrel' hlt'

/-- Fail-soft relation between the unpruned and alpha-beta `_bestScore`
values, for every board, side, depth and well-formed window inside the
sentinels. -/
theorem bestScore_fsRel : ∀ (f : Nat) (b : Board) (c : Bool) (a bb : Int),
    -99999 ≤ a → a < bb → bb ≤ 99999 →
    FSRel a bb (bestScoreTree f b c []).score (bestScoreAlphaBeta f a bb b c []).score := by
  intro f
  induction f with
  | zero => intro b c a bb _ _ _; exact fsRel_refl a bb (piecesScore b)
  | succ f ih =>
    intro b c a bb hA hab hB
    cases c with
    | false =>
      show FSRel a bb
        (mmGo (fun m => ((bestScoreTree f (simulateMove b m) true []).score,
            (bestScoreTree f (simulateMove b m) true []).leaves)) false
          ((possibleMoves b false).filter (fun m => !m.disallowed)) (-99999) none 0).score
        (abGo (fun a' bb' m => ((bestScoreAlphaBeta f a' bb' (simulateMove b m) true []).score,
            (bestScoreAlphaBeta f a' bb' (simulateMove b m) true []).leaves)) false
          ((possibleMoves b false).filter (fun m => !m.disallowed)) a bb (-99999) none 0).score
      have hrel0 : FSRel a bb (-99999) (-99999) :=
        ⟨fun _ => ⟨le_refl _, hA⟩, fun h1 _ => absurd h1 (by omega),
         fun h => absurd h (by omega)⟩
      have hmax : max a (-99999 : Int) = a := max_eq_left hA
      have hev : ∀ m ∈ (possibleMoves b false).filter (fun m => !m.disallowed),
          ∀ a', -99999 ≤ a' → a' < bb →
          FSRel a' bb (bestScoreTree f (simulateMove b m) true []).score
            (bestScoreAlphaBeta f a' bb (simulateMove b m) true []).score :=
        fun m _ a' hA' hab' => ih (simulateMove b m) true a' bb hA' hab' hB
      have := abGo_fsRel_white
        (fun a' bb' m => ((bestScoreAlphaBeta f a' bb' (simulateMove b m) true []).score,
            (bestScoreAlphaBeta f a' bb' (simulateMove b m) true []).leaves))
        (fun m => ((bestScoreTree f (simulateMove b m) true []).score,
            (bestScoreTree f (simulateMove b m) true []).leaves)) bb
        ((possibleMoves b false).filter (fun m => !m.disallowed))
        a (-99999) (-99999) none none 0 0 hA hev hrel0 (by rw [hmax]; exact hab)
      rwa [hmax] at this
    | true =>
      show FSRel a bb
        (mmGo (fun m => ((bestScoreTree f (simulateMove b m) false []).score,
            (bestScoreTree f (simulateMove b m) false []).leaves)) true
          ((possibleMoves b true).filter (fun m => !m.disallowed)) 99999 none 0).score
        (abGo (fun a' bb' m => ((bestScoreAlphaBeta f a' bb' (simulateMove b m) false []).score,
            (bestScoreAlphaBeta f a' bb' (simulateMove b m) false []).leaves)) true
          ((possibleMoves b true).filter (fun m => !m.disallowed)) a bb 99999 none 0).score
      have hrel0 : FSRel a bb 99999 99999 :=
        ⟨fun h => absurd h (by omega), fun _ h2 => absurd h2 (by omega),
         fun h => ⟨h, le_refl _⟩⟩
      have hmin : min bb (99999 : Int) = bb := min_eq_left hB
      have hev : ∀ m ∈ (possibleMoves b true).filter (fun m => !m.disallowed),
          ∀ bb', a < bb' → bb' ≤ 99999 →
          FSRel a bb' (bestScoreTree f (simulateMove b m) false []).score
            (bestScoreAlphaBeta f a bb' (simulateMove b m) false []).score :=
        fun m _ bb' h1 h2 => ih (simulateMove b m) false a bb' hA h1 h2
      have := abGo_fsRel_black
        (fun a' bb' m => ((bestScoreAlphaBeta f a' bb' (simulateMove b m) false []).score,
            (bestScoreAlphaBeta f a' bb' (simulateMove b m) false []).leaves))
        (fun m => ((bestScoreTree f (simulateMove b m) false []).score,
            (bestScoreTree f (simulateMove b m) false []).leaves)) a
        ((possibleMoves b true).filter (fun m => !m.disallowed))
        bb 99999 99999 none none 0 0 hB hev hrel0 (by rw [hmin]; exact hab)
      rwa [hmin] at this

/-- Number of pieces on a board. -/
def boardPieceCount (b : Board) : Nat :=
  (piecesStillOnBoard b).length

/-- Number of pieces on one row. -/
def countRow (row : List (Option Piece)) : Nat :=
  (row.filterMap id).length

/-- A positional-table lookup is bounded when every entry is. -/
theorem adjLookup_bound (g : List (List Int))
    (h : ∀ row ∈ g, ∀ x ∈ row, -80 ≤ x ∧ x ≤ 80) (r c : Nat) :
    -80 ≤ (((g.get? r).bind (fun row => row.get? c)).getD 0)
    ∧ (((g.get? r).bind (fun row => row.get? c)).getD 0) ≤ 80 := by
  cases hg : g.get? r with
  | none => simp
  | some row =>
    simp only [Option.some_bind]
    cases hc : row.get? c with
    | none => exact ⟨by decide, by decide⟩
    | some x => exact h row (List.get?_mem hg) x (List.get?_mem hc)

/-- Every entry of every positional-adjustment table lies in [-80, 80]. -/
theorem adjGrid_bound (k : PieceKind) (ib : Bool) :
    ∀ row ∈ adjustmentGrid k ib, ∀ x ∈ row, -80 ≤ x ∧ x ≤ 80 := by
  cases k <;> cases ib <;> decide

/-- The positional adjustment of any piece lies in [-80, 80]. -/
theorem scoreAdjustment_bound (p : Piece) :
    -80 ≤ scoreAdjustment p ∧ scoreAdjustment p ≤ 80 := by
  exact adjLookup_bound _ (adjGrid_bound p.kind p.isBlack) p.pos.1 p.pos.2

/-- The signed value of any piece lies in [-1079, 1079]. -/
theorem pieceScore_bound (p : Piece) :
    -1079 ≤ Piece.score p ∧ Piece.score p ≤ 1079 := by
  obtain ⟨ha1, ha2⟩ := scoreAdjustment_bound p
  have hb : -999 ≤ baseScore p ∧ baseScore p ≤ 999 := by
    obtain ⟨k, ib, pos⟩ := p
    cases k <;> cases ib <;> simp [baseScore]
  unfold Piece.score
  omega

/-- A sum of piece scores is bounded by 1079 per piece. -/
theorem scoreSum_bound (l : List Piece) :
    -(1079 * (l.length : Int)) ≤ (l.map Piece.score).sum
    ∧ (l.map Piece.score).sum ≤ 1079 * (l.length : Int) := by
  induction l with
  | nil => simp
  | cons p l ih =>
    obtain ⟨h1, h2⟩ := ih
    obtain ⟨h3, h4⟩ := pieceScore_bound p
    simp only [List.map_cons, List.sum_cons, List.length_cons]
    push_cast
    constructor <;> nlinarith

/-- The static board score is bounded by 1079 per piece on the board. -/
theorem piecesScore_bound (b : Board) :
    -(1079 * (boardPieceCount b : Int)) ≤ piecesScore b
    ∧ piecesScore b ≤ 1079 * (boardPieceCount b : Int) := by
  exact scoreSum_bound (piecesStillOnBoard b)

/-- Setting a row cell adds at most one piece. -/
theorem countRow_set_le (row : List (Option Piece)) :
    ∀ (c : Nat) (v : Option Piece), countRow (row.set c v) ≤ countRow row + 1 := by
  induction row with
  | nil => intro c v; simp [countRow]
  | cons x row ih =>
    intro c v
    cases c with
    | zero =>
      cases v with
      | none => cases x <;> (simp [countRow, List.filterMap_cons]; try omega)
      | some p => cases x <;> simp [countRow, List.filterMap_cons]
    | succ c =>
      have := ih c v
      cases x <;> simp [countRow, List.filterMap_cons] at this ⊢ <;> omega

/-- Clearing a row cell never adds a piece. -/
theorem countRow_set_none_le (row : List (Option Piece)) :
    ∀ (c : Nat), countRow (row.set c none) ≤ countRow row := by
  induction row with
  | nil => intro c; simp [countRow]
  | cons x row ih =>
    intro c
    cases c with
    | zero => cases x <;> (simp [countRow, List.filterMap_cons]; try omega)
    | succ c =>
      have := ih c
      cases x <;> simp [countRow, List.filterMap_cons] at this ⊢ <;> omega

/-- Clearing an occupied row cell removes a piece. -/
theorem countRow_set_none_lt (row : List (Option Piece)) :
    ∀ (c : Nat) (p : Piece), row.get? c = some (some p) →
      countRow (row.set c none) + 1 ≤ countRow row := by
  induction row with
  | nil => intro c p h; cases h
  | cons x row ih =>
    intro c p h
    cases c with
    | zero =>
      cases h
      simp [countRow, List.filterMap_cons]
    | succ c =>
      have := ih c p h
      cases x <;> simp [countRow, List.filterMap_cons] at this ⊢ <;> omega

/-- The board piece count is the sum of the row counts. -/
theorem boardPieceCount_eq_sum (b : Board) :
    boardPieceCount b = (b.map countRow).sum := by
  induction b with
  | nil => rfl
  | cons row rest ih =>
    unfold boardPieceCount piecesStillOnBoard at ih ⊢
    simp only [List.flatten_cons, List.filterMap_append, List.length_append,
      List.map_cons, List.sum_cons]
    rw [ih]
    rfl

/-- Exchange law for setting one entry of a list of naturals. -/
theorem natSum_set (l : List Nat) :
    ∀ (n : Nat) (x y : Nat), l.get? n = some y → (l.set n x).sum + y = l.sum + x := by
  induction l with
  | nil => intro n x y h; cases h
  | cons a l ih =>
    intro n x y h
    cases n with
    | zero =>
      cases h
      simp [List.sum_cons]
      omega
    | succ n =>
      have := ih n x y h
      simp [List.sum_cons]
      omega

/-- Setting a cell adds at most one piece to the board count. -/
theorem boardPieceCount_setCell_le (b : Board) (r c : Nat) (v : Option Piece) :
    boardPieceCount (setCell b r c v) ≤ boardPieceCount b + 1 := by
  unfold setCell
  cases hg : b.get? r with
  | none => exact Nat.le_succ _
  | some row =>
    show boardPieceCount (b.set r (row.set c v)) ≤ boardPieceCount b + 1
    rw [boardPieceCount_eq_sum, boardPieceCount_eq_sum, List.map_set]
    have hrow : (b.map countRow).get? r = some (countRow row) := by
      rw [List.get?_eq_getElem?, List.getElem?_map, ← List.get?_eq_getElem?, hg]
      rfl
    have := natSum_set (b.map countRow) r (countRow (row.set c v)) (countRow row) hrow
    have h2 := countRow_set_le row c v
    omega

/-- Clearing a cell never adds to the board count. -/
theorem boardPieceCount_setCell_none_le (b : Board) (r c : Nat) :
    boardPieceCount (setCell b r c none) ≤ boardPieceCount b := by
  unfold setCell
  cases hg : b.get? r with
  | none => exact Nat.le_refl _
  | some row =>
    show boardPieceCount (b.set r (row.set c none)) ≤ boardPieceCount b
    rw [boardPieceCount_eq_sum, boardPieceCount_eq_sum, List.map_set]
    have hrow : (b.map countRow).get? r = some (countRow row) := by
      rw [List.get?_eq_getElem?, List.getElem?_map, ← List.get?_eq_getElem?, hg]
      rfl
    have := natSum_set (b.map countRow) r (countRow (row.set c none)) (countRow row) hrow
    have h2 := countRow_set_none_le row c
    omega

/-- Clearing an occupied cell removes a piece from the board count. -/
theorem boardPieceCount_remove_occupied (b : Board) (pos : Pos) (p : Piece)
    (h : pieceAtPos b pos = some p) :
    boardPieceCount (setCell b pos.1 pos.2 none) + 1 ≤ boardPieceCount b := by
  unfold pieceAtPos pieceAtGridReference at h
  unfold setCell
  cases hg : b.get? pos.1 with
  | none => rw [hg] at h; simp at h
  | some row =>
    rw [hg] at h
    simp only [Option.some_bind] at h
    cases hc : row.get? pos.2 with
    | none => rw [hc] at h; simp at h
    | some cell =>
      rw [hc] at h
      cases cell with
      | none => simp at h
      | some q =>
        have hq : some q = some p := h
        injection hq with hq
        subst hq
        show boardPieceCount (b.set pos.1 (row.set pos.2 none)) + 1 ≤ boardPieceCount b
        rw [boardPieceCount_eq_sum, boardPieceCount_eq_sum, List.map_set]
        have hrow : (b.map countRow).get? pos.1 = some (countRow row) := by
          rw [List.get?_eq_getElem?, List.getElem?_map, ← List.get?_eq_getElem?, hg]
          rfl
        have := natSum_set (b.map countRow) pos.1 (countRow (row.set pos.2 none))
          (countRow row) hrow
        have h2 := countRow_set_none_lt row pos.2 q hc
        omega

/-- Moving a piece never increases the piece count. -/
theorem boardPieceCount_movePiece_le (b : Board) (f t : Pos) :
    boardPieceCount (b.movePiece f t).1 ≤ boardPieceCount b := by
  cases hp : pieceAtPos b f with
  | none =>
    have h1 := boardPieceCount_setCell_none_le b f.1 f.2
    have h2 := boardPieceCount_setCell_none_le (setCell b f.1 f.2 none) t.1 t.2
    simp only [Board.movePiece, Board.removePiece, hp]
    omega
  | some p =>
    have h1 := boardPieceCount_remove_occupied b f p hp
    have h2 := boardPieceCount_setCell_none_le (setCell b f.1 f.2 none) t.1 t.2
    have h3 := boardPieceCount_setCell_le (setCell (setCell b f.1 f.2 none) t.1 t.2 none)
      t.1 t.2 (some { p with pos := t })
    simp only [Board.movePiece, Board.removePiece, Board.setPiece, hp]
    omega

/-- The piece count never grows along a simulated move. -/
theorem boardPieceCount_simulateMove_le (b : Board) (m : ChessMove) :
    boardPieceCount (simulateMove b m) ≤ boardPieceCount b :=
  boardPieceCount_movePiece_le b m.fromSquare m.toSquare

/-- A search value: inside the material window, or one of the two no-move
sentinels. -/
def SVal (B x : Int) : Prop :=
  (-B ≤ x ∧ x ≤ B) ∨ x = -99999 ∨ x = 99999

/-- Unpruned search values over a board of at most `N` pieces are material
scores within 1079 N or sentinels. -/
theorem bestScoreTree_sval (N : Nat) :
    ∀ (f : Nat) (b : Board) (c : Bool) (movesArg : List ChessMove),
      boardPieceCount b ≤ N →
      SVal (1079 * (N : Int)) (bestScoreTree f b c movesArg).score := by
  intro f
  induction f with
  | zero =>
    intro b c movesArg hN
    obtain ⟨h1, h2⟩ := piecesScore_bound b
    have hcast : (boardPieceCount b : Int) ≤ (N : Int) := by exact_mod_cast hN
    have hs : (bestScoreTree 0 b c movesArg).score = piecesScore b := rfl
    exact Or.inl ⟨by rw [hs]; nlinarith, by rw [hs]; nlinarith⟩
  | succ f ih =>
    intro b c movesArg hN
    show SVal (1079 * (N : Int))
      (mmGo (fun m => ((bestScoreTree f (simulateMove b m) (!c) []).score,
          (bestScoreTree f (simulateMove b m) (!c) []).leaves)) c
        (if movesArg.isEmpty then (possibleMoves b c).filter (fun m => !m.disallowed)
         else movesArg) (if c then 99999 else -99999) none 0).score
    apply mmGo_score_cases
    · cases c
      · exact Or.inr (Or.inl rfl)
      · exact Or.inr (Or.inr rfl)
    · intro m _
      exact ih (simulateMove b m) (!c) []
        (le_trans (boardPieceCount_simulateMove_le b m) hN)

/-- Alpha-beta search values over a board of at most `N` pieces are
material scores within 1079 N or sentinels, for every window. -/
theorem bestScoreAlphaBeta_sval (N : Nat) :
    ∀ (f : Nat) (b : Board) (c : Bool) (a bb : Int) (movesArg : List ChessMove),
      boardPieceCount b ≤ N →
      SVal (1079 * (N : Int)) (bestScoreAlphaBeta f a bb b c movesArg).score := by
  intro f
  induction f with
  | zero =>
    intro b c a bb movesArg hN
    obtain ⟨h1, h2⟩ := piecesScore_bound b
    have hcast : (boardPieceCount b : Int) ≤ (N : Int) := by exact_mod_cast hN
    have hs : (bestScoreAlphaBeta 0 a bb b c movesArg).score = piecesScore b := rfl
    exact Or.inl ⟨by rw [hs]; nlinarith, by rw [hs]; nlinarith⟩
  | succ f ih =>
    intro b c a bb movesArg hN
    show SVal (1079 * (N : Int))
      (abGo (fun a' bb' m => ((bestScoreAlphaBeta f a' bb' (simulateMove b m) (!c) []).score,
          (bestScoreAlphaBeta f a' bb' (simulateMove b m) (!c) []).leaves)) c
        (if movesArg.isEmpty then (possibleMoves b c).filter (fun m => !m.disallowed)
         else movesArg) a bb (if c then 99999 else -99999) none 0).score
    apply abGo_score_cases
    · cases c
      · exact Or.inr (Or.inl rfl)
      · exact Or.inr (Or.inr rfl)
    · intro m _ a' bb'
      exact ih (simulateMove b m) (!c) a' bb' []
        (le_trans (boardPieceCount_simulateMove_le b m) hN)

/-- The unpruned loop evaluates every move: its leaf count is the
accumulator plus the sum of the children's leaf counts. -/
theorem mmGo_leaves_eq (ev : ChessMove → Int × Nat) (c : Bool) (ms : List ChessMove) :
    ∀ s mv n, (mmGo ev c ms s mv n).leaves = n + (ms.map (fun m => (ev m).2)).sum := by
  induction ms with
  | nil => intro s mv n; simp; rfl
  | cons m ms ih =>
    intro s mv n
    rw [mmGo_cons]
    by_cases himp : improves c (ev m).1 s = true
    · rw [if_pos himp, ih]
      simp only [List.map_cons, List.sum_cons]
      omega
    · rw [if_neg himp, ih]
      simp only [List.map_cons, List.sum_cons]
      omega

/-- Move for move, the alpha-beta loop evaluates no more leaves than the
unpruned loop when each child search is cheaper for every window. -/
theorem abGo_leaves_le (evA : Int → Int → ChessMove → Int × Nat)
    (evM : ChessMove → Int × Nat) (c : Bool) :
    ∀ (ms : List ChessMove) (a bb sA sM : Int) (mvA mvM : Option ChessMove) (n : Nat),
      (∀ m ∈ ms, ∀ a' bb', (evA a' bb' m).2 ≤ (evM m).2) →
      (abGo evA c ms a bb sA mvA n).leaves ≤ (mmGo evM c ms sM mvM n).leaves := by
  intro ms
  induction ms with
  | nil => intro a bb sA sM mvA mvM n _; exact le_refl n
  | cons m ms ih =>
    intro a bb sA sM mvA mvM n h
    have hm := h m (List.mem_cons_self m ms) a bb
    have hrest : ∀ m' ∈ ms, ∀ a' bb', (evA a' bb' m').2 ≤ (evM m').2 :=
      fun m' hm' => h m' (List.mem_cons_of_mem m hm')
    rw [mmGo_cons]
    have hmml : (if improves c (evM m).1 sM then
        mmGo evM c ms (evM m).1 (some m) (n + (evM m).2)
      else mmGo evM c ms sM mvM (n + (evM m).2)).leaves
        = n + (evM m).2 + (ms.map (fun m' => (evM m').2)).sum := by
      by_cases himp : improves c (evM m).1 sM = true
      · rw [if_pos himp]
        exact mmGo_leaves_eq evM c ms _ _ _
      · rw [if_neg himp]
        exact mmGo_leaves_eq evM c ms _ _ _
    rw [hmml]
    cases c with
    | true =>
      rw [abGo_cons_black]
      by_cases hcut : min bb (evA a bb m).1 ≤ a
      · rw [if_pos hcut]
        show n + (evA a bb m).2 ≤ _
        omega
      · rw [if_neg hcut]
        have h1 := ih a (min bb (evA a bb m).1)
          (if improves true (evA a bb m).1 sA then (evA a bb m).1 else sA) 0
          (if improves true (evA a bb m).1 sA then some m else mvA) none
          (n + (evA a bb m).2) hrest
        have h2 := mmGo_leaves_eq evM true ms 0 none (n + (evA a bb m).2)
        omega
    | false =>
      rw [abGo_cons_white]
      by_cases hcut : bb ≤ max a (evA a bb m).1
      · rw [if_pos hcut]
        show n + (evA a bb m).2 ≤ _
        omega
      · rw [if_neg hcut]
        have h1 := ih (max a (evA a bb m).1) bb
          (if improves false (evA a bb m).1 sA then (evA a bb m).1 else sA) 0
          (if improves false (evA a bb m).1 sA then some m else mvA) none
          (n + (evA a bb m).2) hrest
        have h2 := mmGo_leaves_eq evM false ms 0 none (n + (evA a bb m).2)
        omega

/-- Node-level leaf comparison: the alpha-beta `_bestScore` visits at most
as many leaf positions as the unpruned one, for every window and shared
move-list argument. -/
theorem bestScore_leaves_le :
    ∀ (f : Nat) (a bb : Int) (b : Board) (c : Bool) (movesArg : List ChessMove),
      (bestScoreAlphaBeta f a bb b c movesArg).leaves
        ≤ (bestScoreTree f b c movesArg).leaves := by
  intro f
  induction f with
  | zero => intro a bb b c movesArg; exact le_refl 1
  | succ f ih =>
    intro a bb b c movesArg
    show (abGo (fun a' bb' m => ((bestScoreAlphaBeta f a' bb' (simulateMove b m) (!c) []).score,
          (bestScoreAlphaBeta f a' bb' (simulateMove b m) (!c) []).leaves)) c
        (if movesArg.isEmpty then (possibleMoves b c).filter (fun m => !m.disallowed)
         else movesArg) a bb (if c then 99999 else -99999) none 0).leaves
      ≤ (mmGo (fun m => ((bestScoreTree f (simulateMove b m) (!c) []).score,
          (bestScoreTree f (simulateMove b m) (!c) []).leaves)) c
        (if movesArg.isEmpty then (possibleMoves b c).filter (fun m => !m.disallowed)
         else movesArg) (if c then 99999 else -99999) none 0).leaves
    exact abGo_leaves_le _ _ c _ a bb _ _ none none 0
      (fun m _ a' bb' => ih a' bb' (simulateMove b m) (!c) [])

/-- Every evaluated value bounds the white loop's final score from below. -/
theorem mmGo_score_ge_all (ev : ChessMove → Int × Nat) (ms : List ChessMove) :
    ∀ s mv n m, m ∈ ms → (ev m).1 ≤ (mmGo ev false ms s mv n).score := by
  induction ms with
  | nil => intro s mv n m hm; cases hm
  | cons m0 ms ih =>
    intro s mv n m hm
    rw [mmGo_cons]
    rcases List.mem_cons.mp hm with heq | hmem
    · subst heq
      by_cases himp : improves false (ev m).1 s = true
      · rw [if_pos himp]
        exact mmGo_score_ge ev ms _ _ _
      · rw [if_neg himp]
        have hle : (ev m).1 ≤ s := by
          have := himp
          simp [improves_false] at this
          omega
        exact le_trans hle (mmGo_score_ge ev ms _ _ _)
    · by_cases himp : improves false (ev m0).1 s = true
      · rw [if_pos himp]
        exact ih _ _ _ m hmem
      · rw [if_neg himp]
        exact ih _ _ _ m hmem

/-- Every evaluated value bounds the black loop's final score from above. -/
theorem mmGo_score_le_all (ev : ChessMove → Int × Nat) (ms : List ChessMove) :
    ∀ s mv n m, m ∈ ms → (mmGo ev true ms s mv n).score ≤ (ev m).1 := by
  induction ms with
  | nil => intro s mv n m hm; cases hm
  | cons m0 ms ih =>
    intro s mv n m hm
    rw [mmGo_cons]
    rcases List.mem_cons.mp hm with heq | hmem
    · subst heq
      by_cases himp : improves true (ev m).1 s = true
      · rw [if_pos himp]
        exact mmGo_score_le ev ms _ _ _
      · rw [if_neg himp]
        have hle : s ≤ (ev m).1 := by
          have := himp
          simp [improves_true] at this
          omega
        exact le_trans (mmGo_score_le ev ms _ _ _) hle
    · by_cases himp : improves true (ev m0).1 s = true
      · rw [if_pos himp]
        exact ih _ _ _ m hmem
      · rw [if_neg himp]
        exact ih _ _ _ m hmem

/-- The loop's final score is the accumulator or one of the evaluated
values. -/
theorem mmGo_score_mem (ev : ChessMove → Int × Nat) (c : Bool) (ms : List ChessMove)
    (s : Int) (mv : Option ChessMove) (n : Nat) :
    (mmGo ev c ms s mv n).score = s ∨ ∃ m ∈ ms, (mmGo ev c ms s mv n).score = (ev m).1 :=
  mmGo_score_cases (fun x => x = s ∨ ∃ m ∈ ms, x = (ev m).1) ev c ms s mv n
    (Or.inl rfl) (fun m hm => Or.inr ⟨m, hm, rfl⟩)

/-- A non-improving value keeps the white loop's best move. -/
theorem improveMv_keep_white (x s : Int) (h : x ≤ s) (m : ChessMove)
    (mv : Option ChessMove) :
    (if improves false x s then some m else mv) = mv :=
  if_neg (by simp [improves_false]; omega)

/-- An improving value replaces the white loop's best move. -/
theorem improveMv_take_white (x s : Int) (h : s < x) (m : ChessMove)
    (mv : Option ChessMove) :
    (if improves false x s then some m else mv) = some m :=
  if_pos (by simp [improves_false]; omega)

/-- A non-improving value keeps the black loop's best move. -/
theorem improveMv_keep_black (x s : Int) (h : s ≤ x) (m : ChessMove)
    (mv : Option ChessMove) :
    (if improves true x s then some m else mv) = mv :=
  if_neg (by simp [improves_true]; omega)

/-- An improving value replaces the black loop's best move. -/
theorem improveMv_take_black (x s : Int) (h : x < s) (m : ChessMove)
    (mv : Option ChessMove) :
    (if improves true x s then some m else mv) = some m :=
  if_pos (by simp [improves_true]; omega)

/-- A white alpha-beta loop whose children all return the white no-move
sentinel keeps it: nothing improves and no cutoff fires. -/
theorem abGo_allneg_white (evA : Int → Int → ChessMove → Int × Nat) :
    ∀ (ms : List ChessMove) (bb : Int) (mv : Option ChessMove) (nA : Nat),
      -9999 < bb →
      (∀ m ∈ ms, (evA (-9999) bb m).1 = -99999) →
      (abGo evA false ms (-9999) bb (-99999) mv nA).score = -99999 := by
  intro ms
  induction ms with
  | nil => intro bb mv nA _ _; rfl
  | cons m ms ih =>
    intro bb mv nA hbb h
    have hm := h m (List.mem_cons_self m ms)
    rw [abGo_cons_white, hm]
    rw [show max (-9999 : Int) (-99999) = -9999 from by decide]
    rw [if_neg (by omega : ¬ bb ≤ (-9999 : Int))]
    rw [improve_update_white]
    rw [show max (-99999 : Int) (-99999) = -99999 from by decide]
    rw [improveMv_keep_white (-99999) (-99999) (le_refl _) m mv]
    exact ih bb mv _ hbb (fun m' hm' => h m' (List.mem_cons_of_mem m hm'))

/-- A black alpha-beta loop whose children all return the black no-move
sentinel keeps it. -/
theorem abGo_allpos_black (evA : Int → Int → ChessMove → Int × Nat) :
    ∀ (ms : List ChessMove) (a : Int) (mv : Option ChessMove) (nA : Nat),
      a < 9999 →
      (∀ m ∈ ms, (evA a 9999 m).1 = 99999) →
      (abGo evA true ms a 9999 99999 mv nA).score = 99999 := by
  intro ms
  induction ms with
  | nil => intro a mv nA _ _; rfl
  | cons m ms ih =>
    intro a mv nA ha h
    have hm := h m (List.mem_cons_self m ms)
    rw [abGo_cons_black, hm]
    rw [show min (9999 : Int) 99999 = 9999 from by decide]
    rw [if_neg (by omega : ¬ (9999 : Int) ≤ a)]
    rw [improve_update_black]
    rw [show min (99999 : Int) 99999 = 99999 from by decide]
    rw [improveMv_keep_black 99999 99999 (le_refl _) m mv]
    exact ih a mv _ ha (fun m' hm' => h m' (List.mem_cons_of_mem m hm'))

/-- A black alpha-beta loop at alpha -9999 that will meet a child of exact
unpruned value -99999 ends with exactly -99999: the sentinel child is
returned exactly, improves the running minimum and closes the window. -/
theorem abGo_hitneg_black (evA : Int → Int → ChessMove → Int × Nat)
    (evM : ChessMove → Int × Nat) (B : Int) (hB : B ≤ 9998) :
    ∀ (ms : List ChessMove) (beta sA : Int) (mv : Option ChessMove) (nA : Nat),
      -9999 < beta → beta ≤ 9999 → -9999 < sA →
      (∀ m ∈ ms, SVal B (evM m).1) →
      (∀ m ∈ ms, ∀ bb : Int, -9999 < bb → bb ≤ 99999 →
        FSRel (-9999) bb (evM m).1 (evA (-9999) bb m).1) →
      (∀ m ∈ ms, (evM m).1 = -99999 → ∀ bb : Int, -9999 < bb → bb ≤ 9999 →
        (evA (-9999) bb m).1 = -99999) →
      (∃ m ∈ ms, (evM m).1 = -99999) →
      (abGo evA true ms (-9999) beta sA mv nA).score = -99999 := by
  intro ms
  induction ms with
  | nil =>
    intro beta sA mv nA _ _ _ _ _ _ hex
    exact absurd hex (by simp)
  | cons m ms ih =>
    intro beta sA mv nA hb1 hb2 hsA hsv hfs hexact hex
    have hmem := List.mem_cons_self m ms
    by_cases hvm : (evM m).1 = -99999
    · have hr : (evA (-9999) beta m).1 = -99999 :=
        hexact m hmem hvm beta hb1 hb2
      rw [abGo_cons_black, hr]
      rw [show min beta (-99999 : Int) = -99999 from min_eq_right (by omega)]
      rw [if_pos (by omega : (-99999 : Int) ≤ -9999)]
      show (if improves true (-99999 : Int) sA then (-99999 : Int) else sA) = -99999
      rw [if_pos (by simp [improves_true]; omega)]
    · rw [abGo_cons_black]
      obtain ⟨hflow, hfmid, hfhigh⟩ := hfs m hmem beta hb1 (by omega)
      have hrgt : -9999 < (evA (-9999) beta m).1 := by
        rcases hsv m hmem with ⟨hl, hr2⟩ | hneg | hpos
        · rcases lt_or_le (evM m).1 beta with hlt | hge
          · have := hfmid (by omega) hlt
            omega
          · have := hfhigh hge
            omega
        · exact absurd hneg hvm
        · have := hfhigh (by omega)
          omega
      have hexTail : ∃ m' ∈ ms, (evM m').1 = -99999 := by
        rcases hex with ⟨m', hm', hv'⟩
        rcases List.mem_cons.mp hm' with heq | hmem'
        · subst heq
          exact absurd hv' hvm
        · exact ⟨m', hmem', hv'⟩
      rw [if_neg (by omega : ¬ min beta (evA (-9999) beta m).1 ≤ -9999)]
      rw [improve_update_black]
      exact ih (min beta (evA (-9999) beta m).1) (min sA (evA (-9999) beta m).1) _ _
        (by omega) (by omega) (by omega)
        (fun m' hm' => hsv m' (List.mem_cons_of_mem m hm'))
        (fun m' hm' => hfs m' (List.mem_cons_of_mem m hm'))
        (fun m' hm' => hexact m' (List.mem_cons_of_mem m hm'))
        hexTail

/-- A white alpha-beta loop at beta 9999 that will meet a child of exact
unpruned value 99999 ends with exactly 99999. -/
theorem abGo_hitpos_white (evA : Int → Int → ChessMove → Int × Nat)
    (evM : ChessMove → Int × Nat) (B : Int) (hB : B ≤ 9998) :
    ∀ (ms : List ChessMove) (alpha sA : Int) (mv : Option ChessMove) (nA : Nat),
      -9999 ≤ alpha → alpha < 9999 → sA < 9999 →
      (∀ m ∈ ms, SVal B (evM m).1) →
      (∀ m ∈ ms, ∀ a : Int, -99999 ≤ a → a < 9999 →
        FSRel a 9999 (evM m).1 (evA a 9999 m).1) →
      (∀ m ∈ ms, (evM m).1 = 99999 → ∀ a : Int, -9999 ≤ a → a < 9999 →
        (evA a 9999 m).1 = 99999) →
      (∃ m ∈ ms, (evM m).1 = 99999) →
      (abGo evA false ms alpha 9999 sA mv nA).score = 99999 := by
  intro ms
  induction ms with
  | nil =>
    intro alpha sA mv nA _ _ _ _ _ _ hex
    exact absurd hex (by simp)
  | cons m ms ih =>
    intro alpha sA mv nA ha1 ha2 hsA hsv hfs hexact hex
    have hmem := List.mem_cons_self m ms
    by_cases hvm : (evM m).1 = 99999
    · have hr : (evA alpha 9999 m).1 = 99999 :=
        hexact m hmem hvm alpha ha1 ha2
      rw [abGo_cons_white, hr]
      rw [show max alpha (99999 : Int) = 99999 from max_eq_right (by omega)]
      rw [if_pos (by omega : (9999 : Int) ≤ 99999)]
      show (if improves false (99999 : Int) sA then (99999 : Int) else sA) = 99999
      rw [if_pos (by simp [improves_false]; omega)]
    · rw [abGo_cons_white]
      obtain ⟨hflow, hfmid, hfhigh⟩ := hfs m hmem alpha (by omega) ha2
      have hrlt : (evA alpha 9999 m).1 < 9999 := by
        rcases hsv m hmem with ⟨hl, hr2⟩ | hneg | hpos
        · rcases lt_or_le alpha (evM m).1 with hgt | hle
          · have := hfmid hgt (by omega)
            omega
          · have := hflow hle
            omega
        · have := hflow (by omega)
          omega
        · exact absurd hpos hvm
      have hexTail : ∃ m' ∈ ms, (evM m').1 = 99999 := by
        rcases hex with ⟨m', hm', hv'⟩
        rcases List.mem_cons.mp hm' with heq | hmem'
        · subst heq
          exact absurd hv' hvm
        · exact ⟨m', hmem', hv'⟩
      rw [if_neg (by omega : ¬ (9999 : Int) ≤ max alpha (evA alpha 9999 m).1)]
      rw [improve_update_white]
      exact ih (max alpha (evA alpha 9999 m).1) (max sA (evA alpha 9999 m).1) _ _
        (by omega) (by omega) (by omega)
        (fun m' hm' => hsv m' (List.mem_cons_of_mem m hm'))
        (fun m' hm' => hfs m' (List.mem_cons_of_mem m hm'))
        (fun m' hm' => hexact m' (List.mem_cons_of_mem m hm'))
        hexTail

/-- A node whose unpruned value is the white no-move sentinel -99999 is
scored exactly by alpha-beta for every window (-9999, bb) inside the root
window (both colours, material bounded below the root window). -/
theorem bestScore_exact_neg (N : Nat) (hN : 1079 * (N : Int) ≤ 9998) :
    ∀ (f : Nat),
      (∀ b : Board, boardPieceCount b ≤ N → ∀ bb : Int, -9999 < bb → bb ≤ 9999 →
        (bestScoreTree f b false []).score = -99999 →
        (bestScoreAlphaBeta f (-9999) bb b false []).score = -99999)
      ∧ (∀ b : Board, boardPieceCount b ≤ N → ∀ bb : Int, -9999 < bb → bb ≤ 9999 →
        (bestScoreTree f b true []).score = -99999 →
        (bestScoreAlphaBeta f (-9999) bb b true []).score = -99999) := by
  intro f
  induction f with
  | zero =>
    refine ⟨?_, ?_⟩ <;>
      (intro b hcount bb hb1 hb2 htree
       exfalso
       obtain ⟨h1, h2⟩ := piecesScore_bound b
       have hc : (boardPieceCount b : Int) ≤ (N : Int) := by exact_mod_cast hcount
       have hps : piecesScore b = -99999 := htree
       omega)
  | succ f ih =>
    refine ⟨?_, ?_⟩
    · intro b hcount bb hb1 hb2 htree
      have hcount' : ∀ m : ChessMove, boardPieceCount (simulateMove b m) ≤ N :=
        fun m => le_trans (boardPieceCount_simulateMove_le b m) hcount
      have htree' : (mmGo (fun m => ((bestScoreTree f (simulateMove b m) true []).score,
          (bestScoreTree f (simulateMove b m) true []).leaves)) false
          ((possibleMoves b false).filter (fun m => !m.disallowed)) (-99999) none 0).score
          = -99999 := htree
      have hall : ∀ m ∈ (possibleMoves b false).filter (fun m => !m.disallowed),
          (bestScoreTree f (simulateMove b m) true []).score = -99999 := by
        intro m hm
        have hge := mmGo_score_ge_all
          (fun m => ((bestScoreTree f (simulateMove b m) true []).score,
            (bestScoreTree f (simulateMove b m) true []).leaves))
          ((possibleMoves b false).filter (fun m => !m.disallowed)) (-99999) none 0 m hm
        rw [htree'] at hge
        have hge2 : (bestScoreTree f (simulateMove b m) true []).score ≤ -99999 := hge
        rcases bestScoreTree_sval N f (simulateMove b m) true [] (hcount' m) with
          ⟨hl, hr2⟩ | hneg | hpos
        · omega
        · exact hneg
        · omega
      show (abGo (fun a' bb' m => ((bestScoreAlphaBeta f a' bb' (simulateMove b m) true []).score,
          (bestScoreAlphaBeta f a' bb' (simulateMove b m) true []).leaves)) false
          ((possibleMoves b false).filter (fun m => !m.disallowed)) (-9999) bb (-99999) none 0).score
          = -99999
      exact abGo_allneg_white _ _ bb none 0 hb1
        (fun m hm => ih.2 (simulateMove b m) (hcount' m) bb hb1 hb2 (hall m hm))
    · intro b hcount bb hb1 hb2 htree
      have hcount' : ∀ m : ChessMove, boardPieceCount (simulateMove b m) ≤ N :=
        fun m => le_trans (boardPieceCount_simulateMove_le b m) hcount
      have htree' : (mmGo (fun m => ((bestScoreTree f (simulateMove b m) false []).score,
          (bestScoreTree f (simulateMove b m) false []).leaves)) true
          ((possibleMoves b true).filter (fun m => !m.disallowed)) 99999 none 0).score
          = -99999 := htree
      have hex : ∃ m ∈ (possibleMoves b true).filter (fun m => !m.disallowed),
          (bestScoreTree f (simulateMove b m) false []).score = -99999 := by
        rcases mmGo_score_mem (fun m => ((bestScoreTree f (simulateMove b m) false []).score,
            (bestScoreTree f (simulateMove b m) false []).leaves)) true
            ((possibleMoves b true).filter (fun m => !m.disallowed)) 99999 none 0 with
          h | ⟨m, hm, hsc⟩
        · rw [htree'] at h
          exact absurd h (by decide)
        · rw [htree'] at hsc
          exact ⟨m, hm, hsc.symm⟩
      show (abGo (fun a' bb' m => ((bestScoreAlphaBeta f a' bb' (simulateMove b m) false []).score,
          (bestScoreAlphaBeta f a' bb' (simulateMove b m) false []).leaves)) true
          ((possibleMoves b true).filter (fun m => !m.disallowed)) (-9999) bb 99999 none 0).score
          = -99999
      exact abGo_hitneg_black _
        (fun m => ((bestScoreTree f (simulateMove b m) false []).score,
          (bestScoreTree f (simulateMove b m) false []).leaves))
        (1079 * (N : Int)) hN _ bb 99999 none 0 hb1 hb2 (by decide)
        (fun m hm => bestScoreTree_sval N f (simulateMove b m) false [] (hcount' m))
        (fun m hm bb' h1 h2 =>
          bestScore_fsRel f (simulateMove b m) false (-9999) bb' (by omega) h1 h2)
        (fun m hm hv bb' h1 h2 => ih.1 (simulateMove b m) (hcount' m) bb' h1 h2 hv)
        hex

/-- A node whose unpruned value is the black no-move sentinel 99999 is
scored exactly by alpha-beta for every window (a, 9999) inside the root
window (both colours, material bounded below the root window). -/
theorem bestScore_exact_pos (N : Nat) (hN : 1079 * (N : Int) ≤ 9998) :
    ∀ (f : Nat),
      (∀ b : Board, boardPieceCount b ≤ N → ∀ a : Int, -9999 ≤ a → a < 9999 →
        (bestScoreTree f b false []).score = 99999 →
        (bestScoreAlphaBeta f a 9999 b false []).score = 99999)
      ∧ (∀ b : Board, boardPieceCount b ≤ N → ∀ a : Int, -9999 ≤ a → a < 9999 →
        (bestScoreTree f b true []).score = 99999 →
        (bestScoreAlphaBeta f a 9999 b true []).score = 99999) := by
  intro f
  induction f with
  | zero =>
    refine ⟨?_, ?_⟩ <;>
      (intro b hcount a ha1 ha2 htree
       exfalso
       obtain ⟨h1, h2⟩ := piecesScore_bound b
       have hc : (boardPieceCount b : Int) ≤ (N : Int) := by exact_mod_cast hcount
       have hps : piecesScore b = 99999 := htree
       omega)
  | succ f ih =>
    refine ⟨?_, ?_⟩
    · intro b hcount a ha1 ha2 htree
      have hcount' : ∀ m : ChessMove, boardPieceCount (simulateMove b m) ≤ N :=
        fun m => le_trans (boardPieceCount_simulateMove_le b m) hcount
      have htree' : (mmGo (fun m => ((bestScoreTree f (simulateMove b m) true []).score,
          (bestScoreTree f (simulateMove b m) true []).leaves)) false
          ((possibleMoves b false).filter (fun m => !m.disallowed)) (-99999) none 0).score
          = 99999 := htree
      have hex : ∃ m ∈ (possibleMoves b false).filter (fun m => !m.disallowed),
          (bestScoreTree f (simulateMove b m) true []).score = 99999 := by
        rcases mmGo_score_mem (fun m => ((bestScoreTree f (simulateMove b m) true []).score,
            (bestScoreTree f (simulateMove b m) true []).leaves)) false
            ((possibleMoves b false).filter (fun m => !m.disallowed)) (-99999) none 0 with
          h | ⟨m, hm, hsc⟩
        · rw [htree'] at h
          exact absurd h (by decide)
        · rw [htree'] at hsc
          exact ⟨m, hm, hsc.symm⟩
      show (abGo (fun a' bb' m => ((bestScoreAlphaBeta f a' bb' (simulateMove b m) true []).score,
          (bestScoreAlphaBeta f a' bb' (simulateMove b m) true []).leaves)) false
          ((possibleMoves b false).filter (fun m => !m.disallowed)) a 9999 (-99999) none 0).score
          = 99999
      exact abGo_hitpos_white _
        (fun m => ((bestScoreTree f (simulateMove b m) true []).score,
          (bestScoreTree f (simulateMove b m) true []).leaves))
        (1079 * (N : Int)) hN _ a (-99999) none 0 ha1 ha2 (by decide)
        (fun m hm => bestScoreTree_sval N f (simulateMove b m) true [] (hcount' m))
        (fun m hm a' h1 h2 =>
          bestScore_fsRel f (simulateMove b m) true a' 9999 h1 h2 (by omega))
        (fun m hm hv a' h1 h2 => ih.2 (simulateMove b m) (hcount' m) a' h1 h2 hv)
        hex
    · intro b hcount a ha1 ha2 htree
      have hcount' : ∀ m : ChessMove, boardPieceCount (simulateMove b m) ≤ N :=
        fun m => le_trans (boardPieceCount_simulateMove_le b m) hcount
      have htree' : (mmGo (fun m => ((bestScoreTree f (simulateMove b m) false []).score,
          (bestScoreTree f (simulateMove b m) false []).leaves)) true
          ((possibleMoves b true).filter (fun m => !m.disallowed)) 99999 none 0).score
          = 99999 := htree
      have hall : ∀ m ∈ (possibleMoves b true).filter (fun m => !m.disallowed),
          (bestScoreTree f (simulateMove b m) false []).score = 99999 := by
        intro m hm
        have hle := mmGo_score_le_all
          (fun m => ((bestScoreTree f (simulateMove b m) false []).score,
            (bestScoreTree f (simulateMove b m) false []).leaves))
          ((possibleMoves b true).filter (fun m => !m.disallowed)) 99999 none 0 m hm
        rw [htree'] at hle
        have hle2 : (99999 : Int) ≤ (bestScoreTree f (simulateMove b m) false []).score := hle
        rcases bestScoreTree_sval N f (simulateMove b m) false [] (hcount' m) with
          ⟨hl, hr2⟩ | hneg | hpos
        · omega
        · omega
        · exact hpos
      show (abGo (fun a' bb' m => ((bestScoreAlphaBeta f a' bb' (simulateMove b m) false []).score,
          (bestScoreAlphaBeta f a' bb' (simulateMove b m) false []).leaves)) true
          ((possibleMoves b true).filter (fun m => !m.disallowed)) a 9999 99999 none 0).score
          = 99999
      exact abGo_allpos_black _ _ a none 0 ha2
        (fun m hm => ih.1 (simulateMove b m) (hcount' m) a ha1 ha2 (hall m hm))

/-- At the root window, over the same move list and in matching state, the
white unpruned and alpha-beta loops select the same move: bounded child
values are searched exactly or discarded on both sides, a black no-move
child (-99999) is exact and moves neither side, and a 99999 child is taken
by both, after which alpha-beta cuts and the unpruned loop freezes. -/
theorem rootMoves_white (evA : Int → Int → ChessMove → Int × Nat)
    (evM : ChessMove → Int × Nat) (B : Int) (hB : B ≤ 9998) :
    ∀ (ms : List ChessMove) (s : Int) (mv : Option ChessMove) (nA nM : Nat),
      (∀ m ∈ ms, SVal B (evM m).1) →
      (∀ m ∈ ms, ∀ a : Int, -99999 ≤ a → a < 9999 →
        FSRel a 9999 (evM m).1 (evA a 9999 m).1) →
      (∀ m ∈ ms, (evM m).1 = -99999 → (evA (-9999) 9999 m).1 = -99999) →
      (s = -99999 ∨ (-B ≤ s ∧ s ≤ B)) →
      (mmGo evM false ms s mv nM).move
        = (abGo evA false ms (max (-9999) s) 9999 s mv nA).move := by
  intro ms
  induction ms with
  | nil => intro s mv nA nM _ _ _ _; rfl
  | cons m ms ih =>
    intro s mv nA nM hsv hfs hexact hs
    have hmem := List.mem_cons_self m ms
    have hsv' := fun m' hm' => hsv m' (List.mem_cons_of_mem m hm')
    have hfs' := fun m' hm' => hfs m' (List.mem_cons_of_mem m hm')
    have hex' := fun m' hm' => hexact m' (List.mem_cons_of_mem m hm')
    have hs9999 : s < 9999 := by rcases hs with h | ⟨h1, h2⟩ <;> omega
    have hsge : -99999 ≤ s := by rcases hs with h | ⟨h1, h2⟩ <;> omega
    obtain ⟨hflow, hfmid, hfhigh⟩ :=
      hfs m hmem (max (-9999) s) (by omega) (by omega)
    rw [mmGo_cons, abGo_cons_white]
    rcases hsv m hmem with ⟨hl, hr2⟩ | hneg | hpos
    · rcases lt_or_le (max (-9999 : Int) s) (evM m).1 with hgt | hle
      · have hreq : (evA (max (-9999) s) 9999 m).1 = (evM m).1 := hfmid hgt (by omega)
        rw [if_pos (by simp [improves_false]; omega :
          improves false (evM m).1 s = true)]
        rw [if_neg (by omega :
          ¬ (9999 : Int) ≤ max (max (-9999) s) (evA (max (-9999) s) 9999 m).1)]
        rw [improve_update_white]
        rw [improveMv_take_white (evA (max (-9999) s) 9999 m).1 s (by omega) m mv]
        rw [hreq]
        rw [show max s (evM m).1 = (evM m).1 from max_eq_right (by omega)]
        rw [show max (max (-9999 : Int) s) (evM m).1 = max (-9999) (evM m).1 from by omega]
        exact ih (evM m).1 (some m) _ _ hsv' hfs' hex' (Or.inr ⟨hl, hr2⟩)
      · have hsb : -B ≤ s ∧ s ≤ B := by
          rcases hs with h | h
          · exfalso; omega
          · exact h
        obtain ⟨hvr, hra⟩ := hflow hle
        rw [if_neg (by simp [improves_false]; omega :
          ¬ improves false (evM m).1 s = true)]
        rw [if_neg (by omega :
          ¬ (9999 : Int) ≤ max (max (-9999) s) (evA (max (-9999) s) 9999 m).1)]
        rw [improve_update_white]
        rw [improveMv_keep_white (evA (max (-9999) s) 9999 m).1 s (by omega) m mv]
        rw [show max s (evA (max (-9999) s) 9999 m).1 = s from max_eq_left (by omega)]
        rw [show max (max (-9999 : Int) s) (evA (max (-9999) s) 9999 m).1
          = max (-9999) s from by omega]
        exact ih s mv _ _ hsv' hfs' hex' hs
    · rw [if_neg (by simp [improves_false]; omega :
        ¬ improves false (evM m).1 s = true)]
      rcases hs with hsneg | hsb
      · subst hsneg
        have hmax0 : max (-9999 : Int) (-99999) = -9999 := by decide
        rw [hmax0]
        have hr : (evA (-9999) 9999 m).1 = -99999 := hexact m hmem hneg
        rw [hr]
        rw [hmax0]
        rw [if_neg (by decide : ¬ (9999 : Int) ≤ -9999)]
        rw [improve_update_white]
        rw [show max (-99999 : Int) (-99999) = -99999 from by decide]
        rw [improveMv_keep_white (-99999) (-99999) (le_refl _) m mv]
        have := ih (-99999) mv (nA + (evA (-9999) 9999 m).2) (nM + (evM m).2)
          hsv' hfs' hex' (Or.inl rfl)
        rwa [hmax0] at this
      · obtain ⟨hvr, hra⟩ := hflow (by omega)
        rw [if_neg (by omega :
          ¬ (9999 : Int) ≤ max (max (-9999) s) (evA (max (-9999) s) 9999 m).1)]
        rw [improve_update_white]
        rw [improveMv_keep_white (evA (max (-9999) s) 9999 m).1 s (by omega) m mv]
        rw [show max s (evA (max (-9999) s) 9999 m).1 = s from max_eq_left (by omega)]
        rw [show max (max (-9999 : Int) s) (evA (max (-9999) s) 9999 m).1
          = max (-9999) s from by omega]
        exact ih s mv _ _ hsv' hfs' hex' (Or.inr hsb)
    · rw [if_pos (by simp [improves_false]; omega :
        improves false (evM m).1 s = true)]
      obtain ⟨h9r, hrv⟩ := hfhigh (by omega)
      rw [if_pos (by omega :
        (9999 : Int) ≤ max (max (-9999) s) (evA (max (-9999) s) 9999 m).1)]
      show (mmGo evM false ms (evM m).1 (some m) (nM + (evM m).2)).move
        = (if improves false (evA (max (-9999) s) 9999 m).1 s then some m else mv)
      rw [improveMv_take_white (evA (max (-9999) s) 9999 m).1 s (by omega) m mv]
      rw [hpos]
      exact (mmGo_frozen_white evM ms 99999 (some m) _
        (fun m' hm' => by rcases hsv' m' hm' with ⟨h1, h2⟩ | h | h <;> omega)).2

/-- Mirror of `rootMoves_white` for the black root loop: beta tightens to
the running minimum while alpha stays at the root edge. -/
theorem rootMoves_black (evA : Int → Int → ChessMove → Int × Nat)
    (evM : ChessMove → Int × Nat) (B : Int) (hB : B ≤ 9998) :
    ∀ (ms : List ChessMove) (s : Int) (mv : Option ChessMove) (nA nM : Nat),
      (∀ m ∈ ms, SVal B (evM m).1) →
      (∀ m ∈ ms, ∀ bb : Int, -9999 < bb → bb ≤ 99999 →
        FSRel (-9999) bb (evM m).1 (evA (-9999) bb m).1) →
      (∀ m ∈ ms, (evM m).1 = 99999 → (evA (-9999) 9999 m).1 = 99999) →
      (s = 99999 ∨ (-B ≤ s ∧ s ≤ B)) →
      (mmGo evM true ms s mv nM).move
        = (abGo evA true ms (-9999) (min 9999 s) s mv nA).move := by
  intro ms
  induction ms with
  | nil => intro s mv nA nM _ _ _ _; rfl
  | cons m ms ih =>
    intro s mv nA nM hsv hfs hexact hs
    have hmem := List.mem_cons_self m ms
    have hsv' := fun m' hm' => hsv m' (List.mem_cons_of_mem m hm')
    have hfs' := fun m' hm' => hfs m' (List.mem_cons_of_mem m hm')
    have hex' := fun m' hm' => hexact m' (List.mem_cons_of_mem m hm')
    have hsgt : -9999 < s := by rcases hs with h | ⟨h1, h2⟩ <;> omega
    have hsle : s ≤ 99999 := by rcases hs with h | ⟨h1, h2⟩ <;> omega
    obtain ⟨hflow, hfmid, hfhigh⟩ := hfs m hmem (min 9999 s) (by omega) (by omega)
    rw [mmGo_cons, abGo_cons_black]
    rcases hsv m hmem with ⟨hl, hr2⟩ | hneg | hpos
    · rcases lt_or_le (evM m).1 (min (9999 : Int) s) with hlt | hge
      · have hreq : (evA (-9999) (min 9999 s) m).1 = (evM m).1 := hfmid (by omega) hlt
        rw [if_pos (by simp [improves_true]; omega :
          improves true (evM m).1 s = true)]
        rw [if_neg (by omega :
          ¬ min (min 9999 s) (evA (-9999) (min 9999 s) m).1 ≤ (-9999 : Int))]
        rw [improve_update_black]
        rw [improveMv_take_black (evA (-9999) (min 9999 s) m).1 s (by omega) m mv]
        rw [hreq]
        rw [show min s (evM m).1 = (evM m).1 from min_eq_right (by omega)]
        rw [show min (min (9999 : Int) s) (evM m).1 = min 9999 (evM m).1 from by omega]
        exact ih (evM m).1 (some m) _ _ hsv' hfs' hex' (Or.inr ⟨hl, hr2⟩)
      · have hsb : -B ≤ s ∧ s ≤ B := by
          rcases hs with h | h
          · exfalso; omega
          · exact h
        obtain ⟨hbr, hrv⟩ := hfhigh hge
        rw [if_neg (by simp [improves_true]; omega :
          ¬ improves true (evM m).1 s = true)]
        rw [if_neg (by omega :
          ¬ min (min 9999 s) (evA (-9999) (min 9999 s) m).1 ≤ (-9999 : Int))]
        rw [improve_update_black]
        rw [improveMv_keep_black (evA (-9999) (min 9999 s) m).1 s (by omega) m mv]
        rw [show min s (evA (-9999) (min 9999 s) m).1 = s from min_eq_left (by omega)]
        rw [show min (min (9999 : Int) s) (evA (-9999) (min 9999 s) m).1
          = min 9999 s from by omega]
        exact ih s mv _ _ hsv' hfs' hex' (Or.inr hsb)
    · rw [if_pos (by simp [improves_true]; omega :
        improves true (evM m).1 s = true)]
      obtain ⟨hvr, hra⟩ := hflow (by omega)
      rw [if_pos (by omega :
        min (min 9999 s) (evA (-9999) (min 9999 s) m).1 ≤ (-9999 : Int))]
      show (mmGo evM true ms (evM m).1 (some m) (nM + (evM m).2)).move
        = (if improves true (evA (-9999) (min 9999 s) m).1 s then some m else mv)
      rw [improveMv_take_black (evA (-9999) (min 9999 s) m).1 s (by omega) m mv]
      rw [hneg]
      exact (mmGo_frozen_black evM ms (-99999) (some m) _
        (fun m' hm' => by rcases hsv' m' hm' with ⟨h1, h2⟩ | h | h <;> omega)).2
    · rw [if_neg (by simp [improves_true]; omega :
        ¬ improves true (evM m).1 s = true)]
      rcases hs with hspos | hsb
      · subst hspos
        have hmin0 : min (9999 : Int) 99999 = 9999 := by decide
        rw [hmin0]
        have hr : (evA (-9999) 9999 m).1 = 99999 := hexact m hmem hpos
        rw [hr]
        rw [hmin0]
        rw [if_neg (by decide : ¬ (9999 : Int) ≤ -9999)]
        rw [improve_update_black]
        rw [show min (99999 : Int) 99999 = 99999 from by decide]
        rw [improveMv_keep_black 99999 99999 (le_refl _) m mv]
        have := ih 99999 mv (nA + (evA (-9999) 9999 m).2) (nM + (evM m).2)
          hsv' hfs' hex' (Or.inl rfl)
        rwa [hmin0] at this
      · obtain ⟨hbr, hrv⟩ := hfhigh (by omega)
        rw [if_neg (by omega :
          ¬ min (min 9999 s) (evA (-9999) (min 9999 s) m).1 ≤ (-9999 : Int))]
        rw [improve_update_black]
        rw [improveMv_keep_black (evA (-9999) (min 9999 s) m).1 s (by omega) m mv]
        rw [show min s (evA (-9999) (min 9999 s) m).1 = s from min_eq_left (by omega)]
        rw [show min (min (9999 : Int) s) (evA (-9999) (min 9999 s) m).1
          = min 9999 s from by omega]
        exact ih s mv _ _ hsv' hfs' hex' (Or.inr hsb)

/-- C2 (amended): with no disallowed move in the supplied list, the
alpha-beta player chooses the same move as the unpruned tree-search player
whenever the board's material keeps every static score strictly inside the
root window (at most 1079 per piece, total at most 9998), and it never
evaluates more leaf positions. -/
theorem choseMove_alphaBeta_amended (depth : Nat) (b : Board) (c : Bool)
    (moves : List ChessMove)
    (hall : ∀ m ∈ moves, m.disallowed = false) :
    (1079 * (boardPieceCount b : Int) ≤ 9998 →
      (choseMoveAlphaBeta depth b c moves).1 = (choseMoveTree depth b c moves).1)
    ∧ (choseMoveAlphaBeta depth b c moves).2 ≤ (choseMoveTree depth b c moves).2 := by
  have hfilter : moves.filter (fun m => !m.disallowed) = moves := by
    refine List.filter_eq_self.mpr ?_
    intro m hm
    rw [hall m hm]
    rfl
  constructor
  · intro hsize
    show (if (moves.filter (fun m => !m.disallowed)).length = 1
        then ((moves.filter (fun m => !m.disallowed)).head?, (0 : Nat))
        else ((bestScoreAlphaBeta depth (-9999) 9999 b c
            (moves.filter (fun m => !m.disallowed))).move,
          (bestScoreAlphaBeta depth (-9999) 9999 b c
            (moves.filter (fun m => !m.disallowed))).leaves)).1
      = (if (moves.filter (fun m => !m.disallowed)).length = 1
        then ((moves.filter (fun m => !m.disallowed)).head?, (0 : Nat))
        else ((bestScoreTree depth b c moves).move,
          (bestScoreTree depth b c moves).leaves)).1
    rw [hfilter]
    by_cases hlen : moves.length = 1
    · rw [if_pos hlen, if_pos hlen]
    · rw [if_neg hlen, if_neg hlen]
      show (bestScoreAlphaBeta depth (-9999) 9999 b c moves).move
        = (bestScoreTree depth b c moves).move
      cases depth with
      | zero => rfl
      | succ f =>
        cases c with
        | false =>
          show (abGo (fun a' bb' m =>
                ((bestScoreAlphaBeta f a' bb' (simulateMove b m) true []).score,
                  (bestScoreAlphaBeta f a' bb' (simulateMove b m) true []).leaves)) false
              (if moves.isEmpty then (possibleMoves b false).filter (fun m => !m.disallowed)
               else moves) (-9999) 9999 (-99999) none 0).move
            = (mmGo (fun m => ((bestScoreTree f (simulateMove b m) true []).score,
                (bestScoreTree f (simulateMove b m) true []).leaves)) false
              (if moves.isEmpty then (possibleMoves b false).filter (fun m => !m.disallowed)
               else moves) (-99999) none 0).move
          have := rootMoves_white
            (fun a' bb' m => ((bestScoreAlphaBeta f a' bb' (simulateMove b m) true []).score,
              (bestScoreAlphaBeta f a' bb' (simulateMove b m) true []).leaves))
            (fun m => ((bestScoreTree f (simulateMove b m) true []).score,
              (bestScoreTree f (simulateMove b m) true []).leaves))
            (1079 * (boardPieceCount b : Int)) hsize
            (if moves.isEmpty then (possibleMoves b false).filter (fun m => !m.disallowed)
             else moves) (-99999) none 0 0
            (fun m _ => bestScoreTree_sval (boardPieceCount b) f (simulateMove b m) true []
              (boardPieceCount_simulateMove_le b m))
            (fun m _ a hA ha =>
              bestScore_fsRel f (simulateMove b m) true a 9999 hA ha (by omega))
            (fun m _ hv => (bestScore_exact_neg (boardPieceCount b) hsize f).2
              (simulateMove b m) (boardPieceCount_simulateMove_le b m) 9999 (by decide)
              (le_refl _) hv)
            (Or.inl rfl)
          rw [show max (-9999 : Int) (-99999) = -9999 from by decide] at this
          exact this.symm
        | true =>
          show (abGo (fun a' bb' m =>
                ((bestScoreAlphaBeta f a' bb' (simulateMove b m) false []).score,
                  (bestScoreAlphaBeta f a' bb' (simulateMove b m) false []).leaves)) true
              (if moves.isEmpty then (possibleMoves b true).filter (fun m => !m.disallowed)
               else moves) (-9999) 9999 99999 none 0).move
            = (mmGo (fun m => ((bestScoreTree f (simulateMove b m) false []).score,
                (bestScoreTree f (simulateMove b m) false []).leaves)) true
              (if moves.isEmpty then (possibleMoves b true).filter (fun m => !m.disallowed)
               else moves) 99999 none 0).move
          have := rootMoves_black
            (fun a' bb' m => ((bestScoreAlphaBeta f a' bb' (simulateMove b m) false []).score,
              (bestScoreAlphaBeta f a' bb' (simulateMove b m) false []).leaves))
            (fun m => ((bestScoreTree f (simulateMove b m) false []).score,
              (bestScoreTree f (simulateMove b m) false []).leaves))
            (1079 * (boardPieceCount b : Int)) hsize
            (if moves.isEmpty then (possibleMoves b true).filter (fun m => !m.disallowed)
             else moves) 99999 none 0 0
            (fun m _ => bestScoreTree_sval (boardPieceCount b) f (simulateMove b m) false []
              (boardPieceCount_simulateMove_le b m))
            (fun m _ bb h1 h2 =>
              bestScore_fsRel f (simulateMove b m) false (-9999) bb (by decide) h1 h2)
            (fun m _ hv => (bestScore_exact_pos (boardPieceCount b) hsize f).1
              (simulateMove b m) (boardPieceCount_simulateMove_le b m) (-9999)
              (le_refl _) (by decide) hv)
            (Or.inl rfl)
          rw [show min (9999 : Int) 99999 = 9999 from by decide] at this
          exact this.symm
  · show (if (moves.filter (fun m => !m.disallowed)).length = 1
        then ((moves.filter (fun m => !m.disallowed)).head?, (0 : Nat))
        else ((bestScoreAlphaBeta depth (-9999) 9999 b c
            (moves.filter (fun m => !m.disallowed))).move,
          (bestScoreAlphaBeta depth (-9999) 9999 b c
            (moves.filter (fun m => !m.disallowed))).leaves)).2
      ≤ (if (moves.filter (fun m => !m.disallowed)).length = 1
        then ((moves.filter (fun m => !m.disallowed)).head?, (0 : Nat))
        else ((bestScoreTree depth b c moves).move,
          (bestScoreTree depth b c moves).leaves)).2
    rw [hfilter]
    by_cases hlen : moves.length = 1
    · rw [if_pos hlen, if_pos hlen]
    · rw [if_neg hlen, if_neg hlen]
      show (bestScoreAlphaBeta depth (-9999) 9999 b c moves).leaves
        ≤ (bestScoreTree depth b c moves).leaves
      exact bestScore_leaves_le depth (-9999) 9999 b c moves

/-- A position with a pinned white knight on e4: its capture of the black
queen on d6 is generated but flagged disallowed (moving it exposes the
white king on the e-file to the black rook on e8), while the white king on
e1 has ordinary moves. -/
def pinnedKnightBoard : Board :=
  [[none, none, none, none, some ⟨.rook, true, (0, 4)⟩, none, none,
      some ⟨.king, true, (0, 7)⟩],
   [none, none, none, none, none, none, none, none],
   [none, none, none, some ⟨.queen, true, (2, 3)⟩, none, none, none, none],
   [none, none, none, none, none, none, none, none],
   [none, none, none, none, some ⟨.knight, false, (4, 4)⟩, none, none, none],
   [none, none, none, none, none, none, none, none],
   [none, none, none, none, none, none, none, none],
   [none, none, none, none, some ⟨.king, false, (7, 4)⟩, none, none, none]]

/-- C2 counterexample: at depth 1 on `pinnedKnightBoard` the unpruned
player's root search runs over the full legal-move list, so the disallowed
knight-takes-queen move (e4 to d6, grid (4,4) to (2,3)) wins the maximax
and is chosen, while the alpha-beta player searches only the allowed moves
and chooses a king move: the two players pick different moves. -/
theorem choseMove_alphaBeta_counterexample :
    ((choseMoveAlphaBeta 1 pinnedKnightBoard false
        (movesWithThoseLeavingCheckDisallowed pinnedKnightBoard false)).1.map
      (fun m => (m.fromSquare, m.toSquare)))
    ≠ ((choseMoveTree 1 pinnedKnightBoard false
        (movesWithThoseLeavingCheckDisallowed pinnedKnightBoard false)).1.map
      (fun m => (m.fromSquare, m.toSquare))) := by
  decide

/-- Concrete instance of the amended C2 theorem: on the two-kings board at
depth 1 the hypotheses hold and the two players pick the same move with the
alpha-beta leaf count no larger. -/
theorem choseMove_alphaBeta_witness :
    (∀ m ∈ movesWithThoseLeavingCheckDisallowed kingsOnlyBoard false,
      m.disallowed = false)
    ∧ ((1079 * (boardPieceCount kingsOnlyBoard : Int) ≤ 9998 →
        (choseMoveAlphaBeta 1 kingsOnlyBoard false
            (movesWithThoseLeavingCheckDisallowed kingsOnlyBoard false)).1
          = (choseMoveTree 1 kingsOnlyBoard false
            (movesWithThoseLeavingCheckDisallowed kingsOnlyBoard false)).1)
      ∧ (choseMoveAlphaBeta 1 kingsOnlyBoard false
            (movesWithThoseLeavingCheckDisallowed kingsOnlyBoard false)).2
          ≤ (choseMoveTree 1 kingsOnlyBoard false
            (movesWithThoseLeavingCheckDisallowed kingsOnlyBoard false)).2) :=
  ⟨by decide,
   choseMove_alphaBeta_amended 1 kingsOnlyBoard false
     (movesWithThoseLeavingCheckDisallowed kingsOnlyBoard false) (by decide)⟩

end Chess